import Mathlib

/-!
Verification of the bounded dataset-inspection tool
(`inspect-dataset/scripts/inspect_dataset.py`).

The filesystem is modelled as a tree of entries.  A directory node carries
`Option (List Entry)`: `some children` is a directory whose `iterdir()`
succeeds and returns `children` (in unspecified order; the code sorts them),
`none` is a directory whose listing raises `OSError` (e.g. permission
denied).  `Path.is_dir()` is a `stat`-level test and succeeds even on a
directory whose listing fails.  Regular files are `file` nodes; the model
has no symlinks or special files (the classifier only accepts regular
files, so such entries would behave exactly like directories that are
never descended into).

Discovered paths are represented as lists of name segments relative to the
dataset root (`["train", "a.csv"]` stands for `<root>/train/a.csv`).

Python's `while queue:` deque loop is embedded as a fuel-indexed recursion
`bfsLoopFuel`; the wrapper `bounded_scan_directory` supplies `root.size`
(node count) fuel.  Each iteration of the Python loop removes one queue
element and enqueues only strict subtrees of it, so the summed node count
of the queue strictly decreases; hence `root.size` iterations always
suffice and the fuel bound is never the reason the loop stops (theorem
`bfsLoopFuel_fuel_irrelevant` below certifies this).
-/

namespace InspectDataset

/-- A filesystem entry: a regular file, or a directory whose listing either
succeeds (`some children`) or fails with `OSError` (`none`). -/
inductive Entry where
  | file (name : String)
  | dir (name : String) (listing : Option (List Entry))
deriving Repr

/-- The name (final path component) of an entry. -/
def Entry.name : Entry → String
  | .file n => n
  | .dir n _ => n

mutual
/-- Number of nodes of the entry tree (used as loop fuel; one BFS
iteration dequeues a node and enqueues only strict subtrees, so the node
count of the start entry bounds the number of iterations). -/
def Entry.size : Entry → Nat
  | .file _ => 1
  | .dir _ none => 1
  | .dir _ (some cs) => 1 + Entry.sizeList cs

/-- Total node count of a list of entry trees. -/
def Entry.sizeList : List Entry → Nat
  | [] => 0
  | e :: es => Entry.size e + Entry.sizeList es
end

/-- Result of `iterdir()` on the entry: directories return their listing
(or fail with `none` = `OSError`); calling `iterdir()` on a regular file
raises `NotADirectoryError`, also an `OSError`, hence `none`. -/
def Entry.listing : Entry → Option (List Entry)
  | .file _ => none
  | .dir _ l => l

/-- Model of `Path.is_dir()`. -/
def Entry.isDir : Entry → Bool
  | .file _ => false
  | .dir _ _ => true

/-- Model of `Path.is_file()`. -/
def Entry.isFile : Entry → Bool
  | .file _ => true
  | .dir _ _ => false

/-- A discovered path, as name segments relative to the dataset root. -/
abbrev DirPath := List String

/-! ### String primitives

Python compares `str` values lexicographically by code point, and
`str.lower` on the ASCII suffixes involved here agrees with per-character
ASCII lowercasing.  Lean's built-in `String` order does not reduce inside
the kernel, so the same relations are defined here structurally on
`List Char`. -/

/-- Code-point lexicographic `≤` on character lists (Python `str` `<=`). -/
def lexLe : List Char → List Char → Bool
  | [], _ => true
  | _ :: _, [] => false
  | a :: as, b :: bs => if a < b then true else if b < a then false else lexLe as bs

/-- Python string comparison `a <= b`. -/
def strLe (a b : String) : Bool := lexLe a.toList b.toList

/-- Model of `str.lower` (ASCII; `Char.toLower` lowercases exactly `A`–`Z`). -/
def lowerChars (cs : List Char) : List Char := cs.map Char.toLower

/-- Model of `pathlib.PurePath.suffix` on a file name, as characters: the part of
the name from its last dot onwards, provided that dot is neither the first
nor the last character; otherwise empty. -/
def suffixChars (cs : List Char) : List Char :=
  match cs.reverse.findIdx? (fun c => c == '.') with
  | none => []
  | some k =>
    let i := cs.length - 1 - k
    if 0 < i ∧ i < cs.length - 1 then cs.drop i else []

/-! ### Constants from the source -/

def TABULAR_SUFFIXES : List (List Char) := [".csv".toList, ".parquet".toList]

def ALLOWED_SUBDIRECTORIES : List String :=
  ["train", "val", "valid", "validation", "test", "metadata", "labels", "annotations"]

def EMPTY_CELL_VALUE : String := ""

/-- Translation of `is_tabular_file(path)`: a regular file whose lower-cased suffix is one
of the two tabular suffixes. -/
def is_tabular_file (e : Entry) : Bool :=
  e.isFile && TABULAR_SUFFIXES.contains (lowerChars (suffixChars e.name.toList))

/-! ### Sorting by name (`sorted(..., key=lambda item: item.name)`) -/

/-- Order on entries by name, as used by the `sorted` calls. -/
def entryLE (a b : Entry) : Prop := strLe a.name b.name = true

instance : DecidableRel entryLE := fun a b =>
  inferInstanceAs (Decidable (strLe a.name b.name = true))

theorem lexLe_total (a b : List Char) : lexLe a b = true ∨ lexLe b a = true := by
  induction a generalizing b with
  | nil => left; rfl
  | cons x xs ih =>
    cases b with
    | nil => right; rfl
    | cons y ys =>
      rcases lt_trichotomy x y with h | h | h
      · left; simp [lexLe, h]
      · subst h
        rcases ih ys with h2 | h2
        · left; simp [lexLe, h2]
        · right; simp [lexLe, h2]
      · right; simp [lexLe, h, not_lt_of_gt h]

theorem lexLe_trans {a b c : List Char} (h1 : lexLe a b = true) (h2 : lexLe b c = true) :
    lexLe a c = true := by
  induction a generalizing b c with
  | nil => rfl
  | cons x xs ih =>
    cases b with
    | nil => simp [lexLe] at h1
    | cons y ys =>
      cases c with
      | nil => simp [lexLe] at h2
      | cons z zs =>
        simp only [lexLe] at h1 h2 ⊢
        rcases lt_trichotomy x y with hxy | hxy | hxy
        · rcases lt_trichotomy y z with hyz | hyz | hyz
          · simp [lt_trans hxy hyz]
          · subst hyz; simp [hxy]
          · simp [hyz, not_lt_of_gt hyz] at h2
        · subst hxy
          rcases lt_trichotomy x z with hyz | hyz | hyz
          · simp [hyz]
          · subst hyz
            simp only [lt_irrefl, if_false] at h1 h2 ⊢
            exact ih h1 h2
          · simp [hyz, not_lt_of_gt hyz] at h2
        · simp [hxy, not_lt_of_gt hxy] at h1

instance : IsTotal Entry entryLE := ⟨fun a b => lexLe_total a.name.toList b.name.toList⟩
instance : IsTrans Entry entryLE := ⟨fun _ _ _ h1 h2 => lexLe_trans h1 h2⟩

/-- Model of `sorted(xs, key=lambda item: item.name)` (a stable sort by name). -/
def sortByName (es : List Entry) : List Entry := es.insertionSort entryLE

/-! ### Warnings -/

/-- The `InspectionWarning` dataclass. -/
structure InspectionWarning where
  code : String
  message : String
deriving Repr, DecidableEq

/-! ### Discovery engine -/

/-- Translation of `list_root_tabular_files`: the tabular files among the root children,
in sorted order (the Python for/append loop is the filter of the sorted
listing, each mapped to its one-segment path). -/
def list_root_tabular_files (rootChildren : List Entry) : List DirPath :=
  ((sortByName rootChildren).filter is_tabular_file).map (fun e => [e.name])

/-- Lookup of the child of the dataset root named `name` (the filesystem
gives at most one entry per name; `find?` returns it if present). -/
def findChild (rootChildren : List Entry) (name : String) : Option Entry :=
  rootChildren.find? (fun e => e.name == name)

/-- Translation of `list_allowlisted_directories`: for each allowlisted name in order,
keep `root / name` when `is_dir()` holds. -/
def list_allowlisted_directories (rootChildren : List Entry) : List Entry :=
  ALLOWED_SUBDIRECTORIES.filterMap (fun nm =>
    match findChild rootChildren nm with
    | some e => if e.isDir then some e else none
    | none => none)

/-- One element of the BFS deque: `(path, entry, depth)` where `path` is
the entry's path relative to the dataset root. -/
structure QEntry where
  path : DirPath
  entry : Entry
  depth : Nat
deriving Repr

/-- The inner `for entry in entries:` loop of `bounded_scan_directory`:
returns the grown `discovered` list and the entries appended to the queue
(in order).  `p`/`depth` are the path and depth of the directory being
scanned. -/
def stepEntries (p : DirPath) (depth maxDepth limit : Nat) :
    List Entry → List DirPath → List DirPath × List QEntry
  | [], disc => (disc, [])
  | e :: es, disc =>
    if limit ≤ disc.length then (disc, [])
    else if is_tabular_file e then
      stepEntries p depth maxDepth limit es (disc ++ [p ++ [e.name]])
    else if e.isDir = true ∧ depth < maxDepth then
      let r := stepEntries p depth maxDepth limit es disc
      (r.1, ⟨p ++ [e.name], e, depth + 1⟩ :: r.2)
    else
      stepEntries p depth maxDepth limit es disc

/-- The `while queue and len(discovered) < limit:` deque loop, indexed by
fuel.  The wrapper passes enough fuel that the `0`-fuel branch is
unreachable (see `bfsLoopFuel_fuel_irrelevant`). -/
def bfsLoopFuel (maxDepth limit : Nat) : Nat → List QEntry → List DirPath → List DirPath
  | _, [], disc => disc
  | 0, _ :: _, disc => disc
  | fuel + 1, qe :: rest, disc =>
    if limit ≤ disc.length then disc
    else
      match qe.entry.listing with
      | none => bfsLoopFuel maxDepth limit fuel rest disc
      | some children =>
        let r := stepEntries qe.path qe.depth maxDepth limit (sortByName children) disc
        bfsLoopFuel maxDepth limit fuel (rest ++ r.2) r.1

/-- Translation of `bounded_scan_directory(root, max_depth, limit)`; `p` is the path of
`root` relative to the dataset root. -/
def bounded_scan_directory (p : DirPath) (root : Entry) (max_depth limit : Nat) :
    List DirPath :=
  if limit = 0 then []
  else bfsLoopFuel max_depth limit root.size [⟨p, root, 0⟩] []

/-- The `for subdir in allowlisted_dirs:` loop of `discover_tabular_files`
(the running `remaining = max_files - len(discovered)` is recomputed from
the accumulator; `remaining <= 0` is `max_files - disc.length = 0` on
`Nat`, and on entry `disc.length < max_files` always holds). -/
def subdirLoop (max_files subdir_max_depth : Nat) :
    List Entry → List DirPath → List DirPath
  | [], disc => disc
  | s :: rest, disc =>
    if max_files - disc.length = 0 then disc
    else
      let newly := bounded_scan_directory [s.name] s subdir_max_depth
        (max_files - disc.length)
      subdirLoop max_files subdir_max_depth rest (disc ++ newly)

def noAllowlistedDirsWarning : InspectionWarning :=
  ⟨"no_allowlisted_dirs",
    "No allowlisted subdirectories were found; inspected only root-level tabular files."⟩

def maxFilesReachedWarning (max_files : Nat) : InspectionWarning :=
  ⟨"max_files_reached", s!"Stopped after reaching --max-files={max_files}."⟩

def noTabularFilesWarning : InspectionWarning :=
  ⟨"no_tabular_files_found",
    "No CSV/Parquet files were found with the current bounded scan rules."⟩

/-- Translation of `discover_tabular_files(dataset_root, max_files, subdir_max_depth)`.
The dataset root is given by its (successfully listed) children. -/
def discover_tabular_files (rootChildren : List Entry)
    (max_files subdir_max_depth : Nat) : List DirPath × List InspectionWarning :=
  let discovered := list_root_tabular_files rootChildren
  if max_files ≤ discovered.length then
    (discovered.take max_files, [])
  else
    let allow := list_allowlisted_directories rootChildren
    if allow.isEmpty then
      (discovered, [noAllowlistedDirsWarning])
    else
      let finalDisc := subdirLoop max_files subdir_max_depth allow discovered
      if max_files - finalDisc.length = 0 then
        (finalDisc, [maxFilesReachedWarning max_files])
      else if finalDisc.isEmpty then
        (finalDisc, [noTabularFilesWarning])
      else
        (finalDisc, [])

/-- The `validate_inputs` warning behaviour for the depth parameter (the only
part of input validation the claims touch): depth `0` triggers the
caller-level advisory warning. -/
def validate_depth_warnings (subdir_max_depth : Nat) : List InspectionWarning :=
  if subdir_max_depth = 0 then
    [⟨"subdir_scan_disabled",
      "Subdirectory scanning disabled; only root-level files are inspected."⟩]
  else []

/-! ### CSV inspector

A CSV file is modelled as the sequence of records produced by
`csv.reader` on its (replacement-decoded) text: every cell is a string.
`csv.DictReader` takes the first record as `fieldnames` (or `None`,
i.e. `[]` after `or []`, on an empty file), skips empty records among the
data rows, and for each data row builds
`dict(zip(fieldnames, row))`, then assigns `restval = None` to every
fieldname beyond the row's length.  The source's
`[field for field in fieldnames if field is not None]` filter is the
identity here because `csv.reader` only ever yields strings.
`null_counts` is a Python `dict`, modelled as an association list with
insertion-ordered unique keys. -/

/-- The `CsvSummary` dataclass (`kind` is the constant `"csv"`, omitted). -/
structure CsvSummary where
  path : String
  columns : List String
  sampled_rows : Nat
  null_counts : List (String × Nat)
deriving Repr, DecidableEq

/-- Python `dict` assignment `d[k] = v`: overwrite if the key is present,
otherwise append the new key at the end. -/
def dset (d : List (String × Nat)) (k : String) (v : Nat) : List (String × Nat) :=
  if d.any (fun kv => kv.1 == k) then
    d.map (fun kv => if kv.1 == k then (k, v) else kv)
  else d ++ [(k, v)]

/-- Python `dict` read `d[k]`.  In the source every read key was seeded by
`{column: 0 for column in columns}`, so the `0` default of the model is
never what a read returns unless the key was seeded with it. -/
def dget (d : List (String × Nat)) (k : String) : Nat :=
  match d.find? (fun kv => kv.1 == k) with
  | some kv => kv.2
  | none => 0

/-- The `DictReader` row lookup `row.get(column)`: the dict built from
`zip(fieldnames, row)` with `None` for fieldnames beyond the row length
maps each fieldname to the cell at its *last* occurrence index (later
`zip` pairs overwrite earlier ones), and `none` when that index is past
the end of the row. -/
def rowGet (fieldnames row : List String) (col : String) : Option String :=
  match fieldnames.reverse.findIdx? (fun f => f == col) with
  | none => none
  | some k => row.get? (fieldnames.length - 1 - k)

/-- Whitespace as stripped by Python `str.strip()` (ASCII part; the
claims never involve the non-ASCII Unicode spaces `strip` also removes). -/
def pyWhitespace (c : Char) : Bool :=
  [' ', '\t', '\n', '\x0d', '\x0b', '\x0c'].contains c

/-- Model of `str.strip()`. -/
def stripChars (cs : List Char) : List Char :=
  ((cs.dropWhile pyWhitespace).reverse.dropWhile pyWhitespace).reverse

/-- The cell test of the null-count loop:
`value is None or value.strip() == EMPTY_CELL_VALUE`. -/
def isNullCell (v : Option String) : Bool :=
  match v with
  | none => true
  | some s => String.mk (stripChars s.toList) == EMPTY_CELL_VALUE

/-- The body of one iteration of the sampling loop (the inner
`for column in columns:` pass):
`if isNullCell(row.get(column)): null_counts[column] += 1`, generic in
the per-column null test `P`. -/
def rowFold (P : String → Bool) (cols : List String)
    (d : List (String × Nat)) : List (String × Nat) :=
  cols.foldl (fun acc c => if P c then dset acc c (dget acc c + 1) else acc) d

/-- The `for row in reader:` sampling loop: stops once `sample_rows` rows
have been counted, and for each sampled row increments the null counter of
every column whose cell is absent or blank. -/
def csvLoop (columns : List String) (sample_rows : Nat) :
    List (List String) → Nat → List (String × Nat) → Nat × List (String × Nat)
  | [], sampled, d => (sampled, d)
  | row :: rest, sampled, d =>
    if sample_rows ≤ sampled then (sampled, d)
    else
      csvLoop columns sample_rows rest (sampled + 1)
        (rowFold (fun c => isNullCell (rowGet columns row c)) columns d)

/-- Translation of `inspect_csv_file(path, sample_rows)`, with the parsed file content
passed in place of the filesystem read. -/
def inspect_csv_file (path : String) (file : List (List String))
    (sample_rows : Nat) : CsvSummary :=
  let columns := file.headD []
  let dataRows := (file.drop 1).filter (fun r => !r.isEmpty)
  let init : List (String × Nat) := columns.foldl (fun d c => dset d c 0) []
  let r := csvLoop columns sample_rows dataRows 0 init
  { path := path, columns := columns, sampled_rows := r.1, null_counts := r.2 }

/-! ### Parquet inspector

`pyarrow` is an optional dependency probed at import time, and its reads
can fail; both are modelled as explicit data supplied by a
`ParquetReadEnv`.  The host's optional external tools (probed by
`shutil.which` when building fallback suggestions) are modelled the same
way. -/

/-- A parquet path together with its parent directory (the two pieces of
`pathlib.Path` data the inspector uses). -/
structure PPath where
  full : String
  parent : String
deriving Repr, DecidableEq

/-- One entry of the fallback `options` list. -/
structure FallbackOption where
  tool : String
  commands : List String
deriving Repr, DecidableEq

/-- The `{"options": [...]}` payload of `build_parquet_fallback`. -/
structure FallbackPayload where
  options : List FallbackOption
deriving Repr, DecidableEq

/-- A schema field: `{"name": ..., "type": ...}`. -/
structure SchemaField where
  name : String
  typeDesc : String
deriving Repr, DecidableEq

/-- The first record batch, as the inspector consumes it: its row count
and the per-column null counts of the table built from it. -/
structure PBatch where
  numRows : Nat
  nullCounts : List (String × Nat)
deriving Repr, DecidableEq

/-- Behaviour of the optional `pyarrow` capability and host tools for one
inspection: whether the import succeeds, what `pq.ParquetFile(path)`
returns (schema handle or exception message), and what reading the first
batch returns (`none` = file exhausted/empty, or an exception message). -/
structure ParquetReadEnv where
  duckdbPresent : Bool
  parquetToolsPresent : Bool
  pyarrowAvailable : Bool
  openResult : Except String (List SchemaField)
  batchResult : Except String (Option PBatch)
deriving Repr

/-- The `ParquetSummary` dataclass (`kind` is the constant `"parquet"`,
omitted). -/
structure ParquetSummary where
  path : String
  status : String
  columns : List SchemaField
  sampled_rows : Option Nat
  null_counts : Option (List (String × Nat))
  fallback : Option FallbackPayload
  error : Option String
deriving Repr, DecidableEq

/-- Model of `shlex.quote`: unchanged if nonempty and made only of safe
characters, otherwise wrapped in single quotes with embedded single
quotes escaped as `'"'"'` (quotes written with `\x27` escapes). -/
def shlexQuote (s : String) : String :=
  let safeChar := fun (c : Char) =>
    c.isAlphanum || ['@', '%', '+', '=', ':', ',', '.', '/', '-', '_'].contains c
  if s = "" then "\x27\x27"
  else if s.toList.all safeChar then s
  else "\x27" ++ (s.replace "\x27" "\x27\"\x27\"\x27") ++ "\x27"

/-- SQL single-quote escaping: `str(path).replace("'", "''")`. -/
def sqlQuote (s : String) : String := s.replace "\x27" "\x27\x27"

/-- Translation of `build_parquet_fallback(path)`: duckdb and parquet-tools suggestions
when those binaries are present, always followed by the generic `uv`
self-invocation suggestion. -/
def build_parquet_fallback (duckdbPresent parquetToolsPresent : Bool)
    (path : PPath) : FallbackPayload :=
  let sqlPath := sqlQuote path.full
  let shellPath := shlexQuote path.full
  let duckdbOptions : List FallbackOption :=
    if duckdbPresent then
      [⟨"duckdb",
        ["duckdb -c \"DESCRIBE SELECT * FROM read_parquet(\x27" ++ sqlPath
          ++ "\x27) LIMIT 0;\"",
         "duckdb -c \"SELECT * FROM read_parquet(\x27" ++ sqlPath
          ++ "\x27) LIMIT 5;\""]⟩]
    else []
  let ptOptions : List FallbackOption :=
    if parquetToolsPresent then
      [⟨"parquet-tools",
        ["parquet-tools schema " ++ shellPath,
         "parquet-tools head " ++ shellPath]⟩]
    else []
  let uvOption : FallbackOption :=
    ⟨"uv",
      ["uv run --with pyarrow inspect-dataset/scripts/inspect_dataset.py --dataset-root "
        ++ shlexQuote path.parent]⟩
  ⟨duckdbOptions ++ ptOptions ++ [uvOption]⟩

set_option linter.unusedVariables false in
/-- Translation of `inspect_parquet_file(path, sample_rows)`.  `sample_rows` only sets
the requested batch size; the batch the environment actually returns is
part of `env`. -/
def inspect_parquet_file (env : ParquetReadEnv) (path : PPath)
    (sample_rows : Nat) : ParquetSummary :=
  if !env.pyarrowAvailable then
    { path := path.full, status := "fallback-required", columns := [],
      sampled_rows := none, null_counts := none,
      fallback := some (build_parquet_fallback env.duckdbPresent env.parquetToolsPresent path),
      error := some "pyarrow is not installed in the active Python environment." }
  else
    match env.openResult with
    | .error e =>
      { path := path.full, status := "read-error", columns := [],
        sampled_rows := none, null_counts := none,
        fallback := some (build_parquet_fallback env.duckdbPresent env.parquetToolsPresent path),
        error := some ("pyarrow failed to open file: " ++ e) }
    | .ok schema =>
      match env.batchResult with
      | .error e =>
        { path := path.full, status := "read-error", columns := schema,
          sampled_rows := none, null_counts := none,
          fallback := some (build_parquet_fallback env.duckdbPresent env.parquetToolsPresent path),
          error := some ("pyarrow failed while reading sample rows: " ++ e) }
      | .ok none =>
        { path := path.full, status := "ok", columns := schema,
          sampled_rows := some 0, null_counts := some [],
          fallback := none, error := none }
      | .ok (some batch) =>
        { path := path.full, status := "ok", columns := schema,
          sampled_rows := some batch.numRows, null_counts := some batch.nullCounts,
          fallback := none, error := none }

/-! ## Lemmas about the discovery engine -/

theorem Entry.size_pos (e : Entry) : 1 ≤ e.size := by
  cases e with
  | file n => simp [Entry.size]
  | dir n l => cases l <;> simp [Entry.size]

theorem Entry.sizeList_eq_sum (es : List Entry) :
    Entry.sizeList es = (es.map Entry.size).sum := by
  induction es with
  | nil => rfl
  | cons e es ih => simp [Entry.sizeList, ih]

theorem Entry.size_of_listing_some {e : Entry} {cs : List Entry}
    (h : e.listing = some cs) : e.size = 1 + Entry.sizeList cs := by
  cases e with
  | file n => simp [Entry.listing] at h
  | dir n l =>
    simp [Entry.listing] at h
    subst h
    rfl

/-- Total node weight of a queue (decreases at every loop iteration). -/
def queueWeight (q : List QEntry) : Nat := (q.map (fun qe => qe.entry.size)).sum

theorem sortByName_perm (es : List Entry) : List.Perm (sortByName es) es :=
  List.perm_insertionSort entryLE es

theorem sortByName_sorted (es : List Entry) : List.Sorted entryLE (sortByName es) :=
  List.sorted_insertionSort entryLE es

theorem sortByName_sizeList (es : List Entry) :
    Entry.sizeList (sortByName es) = Entry.sizeList es := by
  rw [Entry.sizeList_eq_sum, Entry.sizeList_eq_sum]
  exact ((sortByName_perm es).map Entry.size).sum_eq

/-- Exact shape of the discovered list after the inner entry loop: the
tabular entries in order, mapped to their paths, truncated to the space
the limit leaves. -/
theorem stepEntries_fst (p : DirPath) (depth maxDepth limit : Nat)
    (es : List Entry) (disc : List DirPath) :
    (stepEntries p depth maxDepth limit es disc).1 =
      disc ++ (((es.filter is_tabular_file).map (fun e => p ++ [e.name])).take
        (limit - disc.length)) := by
  induction es generalizing disc with
  | nil => simp [stepEntries]
  | cons e es ih =>
    by_cases hfull : limit ≤ disc.length
    · have h0 : limit - disc.length = 0 := Nat.sub_eq_zero_of_le hfull
      simp [stepEntries, hfull, h0]
    · simp only [stepEntries, if_neg hfull]
      by_cases htab : is_tabular_file e
      · rw [if_pos htab, ih]
        have hlen : (disc ++ [p ++ [e.name]]).length = disc.length + 1 := by simp
        have htake : limit - disc.length = (limit - (disc.length + 1)) + 1 := by omega
        rw [hlen, htake]
        simp [htab, List.append_assoc]
      · rw [if_neg htab]
        by_cases hdir : e.isDir = true ∧ depth < maxDepth
        · rw [if_pos hdir]
          show (stepEntries p depth maxDepth limit es disc).1 = _
          rw [ih]
          simp [htab]
        · rw [if_neg hdir, ih]
          simp [htab]

theorem stepEntries_fst_length_le (p : DirPath) (depth maxDepth limit : Nat)
    (es : List Entry) (disc : List DirPath) (h : disc.length ≤ limit) :
    (stepEntries p depth maxDepth limit es disc).1.length ≤ limit := by
  rw [stepEntries_fst]
  have := List.length_take ((limit - disc.length))
    (((es.filter is_tabular_file).map (fun e => p ++ [e.name])))
  simp only [List.length_append]
  omega

theorem stepEntries_snd_mem (p : DirPath) (depth maxDepth limit : Nat)
    (es : List Entry) (disc : List DirPath) :
    ∀ qe ∈ (stepEntries p depth maxDepth limit es disc).2,
      qe.depth = depth + 1 ∧ qe.entry ∈ es ∧ qe.path = p ++ [qe.entry.name] ∧
        depth < maxDepth := by
  induction es generalizing disc with
  | nil => simp [stepEntries]
  | cons e es ih =>
    intro qe hqe
    by_cases hfull : limit ≤ disc.length
    · simp [stepEntries, hfull] at hqe
    · simp only [stepEntries, if_neg hfull] at hqe
      by_cases htab : is_tabular_file e
      · simp only [htab, if_pos rfl] at hqe
        obtain ⟨h1, h2, h3, h4⟩ := ih _ qe hqe
        exact ⟨h1, List.mem_cons_of_mem _ h2, h3, h4⟩
      · simp only [htab, Bool.false_eq_true, if_false] at hqe
        by_cases hdir : e.isDir = true ∧ depth < maxDepth
        · simp only [if_pos hdir] at hqe
          rcases List.mem_cons.mp hqe with h | h
          · subst h
            exact ⟨rfl, List.mem_cons_self _ _, rfl, hdir.2⟩
          · obtain ⟨h1, h2, h3, h4⟩ := ih _ qe h
            exact ⟨h1, List.mem_cons_of_mem _ h2, h3, h4⟩
        · simp only [if_neg hdir] at hqe
          obtain ⟨h1, h2, h3, h4⟩ := ih _ qe hqe
          exact ⟨h1, List.mem_cons_of_mem _ h2, h3, h4⟩

theorem stepEntries_snd_weight (p : DirPath) (depth maxDepth limit : Nat)
    (es : List Entry) (disc : List DirPath) :
    queueWeight (stepEntries p depth maxDepth limit es disc).2 ≤
      Entry.sizeList es := by
  induction es generalizing disc with
  | nil => simp [stepEntries, queueWeight]
  | cons e es ih =>
    have hpos := Entry.size_pos e
    by_cases hfull : limit ≤ disc.length
    · simp only [stepEntries, if_pos hfull]
      simp [queueWeight, Entry.sizeList]
    · simp only [stepEntries, if_neg hfull]
      by_cases htab : is_tabular_file e
      · simp only [htab, if_pos rfl]
        have := ih (disc ++ [p ++ [e.name]])
        simp [Entry.sizeList]
        omega
      · simp only [htab, Bool.false_eq_true, if_false]
        by_cases hdir : e.isDir = true ∧ depth < maxDepth
        · simp only [if_pos hdir]
          have := ih disc
          simp only [queueWeight, List.map_cons, List.sum_cons, Entry.sizeList]
          have h2 : queueWeight (stepEntries p depth maxDepth limit es disc).2 ≤
            Entry.sizeList es := ih disc
          simp only [queueWeight] at h2
          omega
        · simp only [if_neg hdir]
          have := ih disc
          simp [Entry.sizeList]
          omega

theorem bfsLoopFuel_nil (maxDepth limit f : Nat) (disc : List DirPath) :
    bfsLoopFuel maxDepth limit f [] disc = disc := by
  cases f <;> rfl

theorem bfsLoopFuel_full (maxDepth limit f : Nat) (q : List QEntry)
    (disc : List DirPath) (h : limit ≤ disc.length) :
    bfsLoopFuel maxDepth limit f q disc = disc := by
  cases f with
  | zero => cases q <;> rfl
  | succ f =>
    cases q with
    | nil => rfl
    | cons qe rest => simp [bfsLoopFuel, h]

theorem bfsLoopFuel_cons_none (maxDepth limit f : Nat) (qe : QEntry)
    (rest : List QEntry) (disc : List DirPath) (h1 : ¬ limit ≤ disc.length)
    (h2 : qe.entry.listing = none) :
    bfsLoopFuel maxDepth limit (f + 1) (qe :: rest) disc =
      bfsLoopFuel maxDepth limit f rest disc := by
  simp only [bfsLoopFuel, if_neg h1, h2]

theorem bfsLoopFuel_cons_some (maxDepth limit f : Nat) (qe : QEntry)
    (rest : List QEntry) (disc : List DirPath) (cs : List Entry)
    (h1 : ¬ limit ≤ disc.length) (h2 : qe.entry.listing = some cs) :
    bfsLoopFuel maxDepth limit (f + 1) (qe :: rest) disc =
      bfsLoopFuel maxDepth limit f
        (rest ++ (stepEntries qe.path qe.depth maxDepth limit (sortByName cs) disc).2)
        (stepEntries qe.path qe.depth maxDepth limit (sortByName cs) disc).1 := by
  simp only [bfsLoopFuel, if_neg h1, h2]

theorem bfsLoopFuel_length_le (maxDepth limit : Nat) :
    ∀ (f : Nat) (q : List QEntry) (disc : List DirPath), disc.length ≤ limit →
      (bfsLoopFuel maxDepth limit f q disc).length ≤ limit := by
  intro f
  induction f with
  | zero => intro q disc h; cases q <;> simpa [bfsLoopFuel]
  | succ f ih =>
    intro q disc h
    cases q with
    | nil => simpa [bfsLoopFuel_nil]
    | cons qe rest =>
      by_cases h1 : limit ≤ disc.length
      · rw [bfsLoopFuel_full _ _ _ _ _ h1]; exact h
      · cases h2 : qe.entry.listing with
        | none => rw [bfsLoopFuel_cons_none _ _ _ _ _ _ h1 h2]; exact ih rest disc h
        | some cs =>
          rw [bfsLoopFuel_cons_some _ _ _ _ _ _ _ h1 h2]
          exact ih _ _ (stepEntries_fst_length_le _ _ _ _ _ _ h)

theorem bfsLoopFuel_append (maxDepth limit : Nat) :
    ∀ (f : Nat) (q : List QEntry) (disc : List DirPath),
      ∃ ext, bfsLoopFuel maxDepth limit f q disc = disc ++ ext := by
  intro f
  induction f with
  | zero =>
    intro q disc
    cases q with
    | nil => exact ⟨[], by simp [bfsLoopFuel]⟩
    | cons qe rest => exact ⟨[], by simp [bfsLoopFuel]⟩
  | succ f ih =>
    intro q disc
    cases q with
    | nil => exact ⟨[], by simp [bfsLoopFuel_nil]⟩
    | cons qe rest =>
      by_cases h1 : limit ≤ disc.length
      · exact ⟨[], by simp [bfsLoopFuel_full _ _ _ _ _ h1]⟩
      · cases h2 : qe.entry.listing with
        | none => rw [bfsLoopFuel_cons_none _ _ _ _ _ _ h1 h2]; exact ih rest disc
        | some cs =>
          rw [bfsLoopFuel_cons_some _ _ _ _ _ _ _ h1 h2]
          obtain ⟨ext1, hext1⟩ := ih
            (rest ++ (stepEntries qe.path qe.depth maxDepth limit (sortByName cs) disc).2)
            (stepEntries qe.path qe.depth maxDepth limit (sortByName cs) disc).1
          refine ⟨(((sortByName cs).filter is_tabular_file).map
            (fun e => qe.path ++ [e.name])).take (limit - disc.length) ++ ext1, ?_⟩
          rw [hext1, stepEntries_fst, List.append_assoc]

theorem bounded_scan_length_le (p : DirPath) (root : Entry) (max_depth limit : Nat) :
    (bounded_scan_directory p root max_depth limit).length ≤ limit := by
  unfold bounded_scan_directory
  by_cases h : limit = 0
  · simp [h]
  · rw [if_neg h]
    exact bfsLoopFuel_length_le _ _ _ _ _ (by simp)

/-- Depth invariant of the deque loop: when every queued entry respects
the depth bound and sits at path length `baseLen + depth`, every path the
loop adds to `disc` is one segment below a queued directory, hence has
length `baseLen + k + 1` for some level `k ≤ maxDepth`. -/
theorem bfsLoopFuel_mem_depth (maxDepth limit baseLen : Nat) :
    ∀ (f : Nat) (q : List QEntry) (disc : List DirPath),
      (∀ qe ∈ q, qe.depth ≤ maxDepth ∧ qe.path.length = baseLen + qe.depth) →
      ∀ pth ∈ bfsLoopFuel maxDepth limit f q disc,
        pth ∈ disc ∨ ∃ k, k ≤ maxDepth ∧ pth.length = baseLen + k + 1 := by
  intro f
  induction f with
  | zero =>
    intro q disc hq pth hpth
    cases q with
    | nil => rw [bfsLoopFuel_nil] at hpth; exact Or.inl hpth
    | cons qe rest => simp only [bfsLoopFuel] at hpth; exact Or.inl hpth
  | succ f ih =>
    intro q disc hq pth hpth
    cases q with
    | nil => rw [bfsLoopFuel_nil] at hpth; exact Or.inl hpth
    | cons qe rest =>
      by_cases h1 : limit ≤ disc.length
      · rw [bfsLoopFuel_full _ _ _ _ _ h1] at hpth; exact Or.inl hpth
      · cases h2 : qe.entry.listing with
        | none =>
          rw [bfsLoopFuel_cons_none _ _ _ _ _ _ h1 h2] at hpth
          exact ih rest disc (fun x hx => hq x (List.mem_cons_of_mem _ hx)) pth hpth
        | some cs =>
          rw [bfsLoopFuel_cons_some _ _ _ _ _ _ _ h1 h2] at hpth
          have hqe := hq qe (List.mem_cons_self _ _)
          have hnewq : ∀ x ∈ rest ++
              (stepEntries qe.path qe.depth maxDepth limit (sortByName cs) disc).2,
              x.depth ≤ maxDepth ∧ x.path.length = baseLen + x.depth := by
            intro x hx
            rcases List.mem_append.mp hx with hx | hx
            · exact hq x (List.mem_cons_of_mem _ hx)
            · obtain ⟨hd, _, hp, hlt⟩ := stepEntries_snd_mem _ _ _ _ _ _ x hx
              constructor
              · omega
              · rw [hp]
                simp [hqe.2, hd]
                omega
          rcases ih _ _ hnewq pth hpth with hin | hex
          · rw [stepEntries_fst] at hin
            rcases List.mem_append.mp hin with hin | hin
            · exact Or.inl hin
            · have hin2 := List.take_subset _ _ hin
              obtain ⟨e, _, rfl⟩ := List.mem_map.mp hin2
              refine Or.inr ⟨qe.depth, hqe.1, ?_⟩
              simp [hqe.2]
          · exact Or.inr hex

/-- Every path produced by the loop extends the path of some queued entry
by at least one segment (in particular it extends the scan prefix). -/
theorem bfsLoopFuel_mem_under (maxDepth limit : Nat) (pfx : DirPath) :
    ∀ (f : Nat) (q : List QEntry) (disc : List DirPath),
      (∀ qe ∈ q, ∃ u, qe.path = pfx ++ u) →
      ∀ pth ∈ bfsLoopFuel maxDepth limit f q disc,
        pth ∈ disc ∨ ∃ v, v ≠ [] ∧ pth = pfx ++ v := by
  intro f
  induction f with
  | zero =>
    intro q disc hq pth hpth
    cases q with
    | nil => rw [bfsLoopFuel_nil] at hpth; exact Or.inl hpth
    | cons qe rest => simp only [bfsLoopFuel] at hpth; exact Or.inl hpth
  | succ f ih =>
    intro q disc hq pth hpth
    cases q with
    | nil => rw [bfsLoopFuel_nil] at hpth; exact Or.inl hpth
    | cons qe rest =>
      by_cases h1 : limit ≤ disc.length
      · rw [bfsLoopFuel_full _ _ _ _ _ h1] at hpth; exact Or.inl hpth
      · cases h2 : qe.entry.listing with
        | none =>
          rw [bfsLoopFuel_cons_none _ _ _ _ _ _ h1 h2] at hpth
          exact ih rest disc (fun x hx => hq x (List.mem_cons_of_mem _ hx)) pth hpth
        | some cs =>
          rw [bfsLoopFuel_cons_some _ _ _ _ _ _ _ h1 h2] at hpth
          obtain ⟨u, hu⟩ := hq qe (List.mem_cons_self _ _)
          have hnewq : ∀ x ∈ rest ++
              (stepEntries qe.path qe.depth maxDepth limit (sortByName cs) disc).2,
              ∃ w, x.path = pfx ++ w := by
            intro x hx
            rcases List.mem_append.mp hx with hx | hx
            · exact hq x (List.mem_cons_of_mem _ hx)
            · obtain ⟨_, _, hp, _⟩ := stepEntries_snd_mem _ _ _ _ _ _ x hx
              exact ⟨u ++ [x.entry.name], by rw [hp, hu, List.append_assoc]⟩
          rcases ih _ _ hnewq pth hpth with hin | hex
          · rw [stepEntries_fst] at hin
            rcases List.mem_append.mp hin with hin | hin
            · exact Or.inl hin
            · have hin2 := List.take_subset _ _ hin
              obtain ⟨e, _, rfl⟩ := List.mem_map.mp hin2
              exact Or.inr ⟨u ++ [e.name], by simp, by rw [hu, List.append_assoc]⟩
          · exact Or.inr hex

/-- The fuel bound is semantically irrelevant once it is at least the
summed node count of the queue: one iteration consumes at least one node
of weight, so `queueWeight q` iterations always reach the real loop exit
(empty queue or full budget).  `bounded_scan_directory` passes
`root.size = queueWeight [(p, root, 0)]`. -/
theorem bfsLoopFuel_fuel_irrelevant (maxDepth limit : Nat) :
    ∀ (f g : Nat) (q : List QEntry) (disc : List DirPath),
      queueWeight q ≤ f → queueWeight q ≤ g →
      bfsLoopFuel maxDepth limit f q disc = bfsLoopFuel maxDepth limit g q disc := by
  intro f
  induction f with
  | zero =>
    intro g q disc hf hg
    cases q with
    | nil => rw [bfsLoopFuel_nil, bfsLoopFuel_nil]
    | cons qe rest =>
      exfalso
      have := Entry.size_pos qe.entry
      simp [queueWeight] at hf
      omega
  | succ f ih =>
    intro g q disc hf hg
    cases q with
    | nil => rw [bfsLoopFuel_nil, bfsLoopFuel_nil]
    | cons qe rest =>
      have hwcons : queueWeight (qe :: rest) = qe.entry.size + queueWeight rest := by
        simp [queueWeight]
      obtain ⟨g', rfl⟩ : ∃ g', g = g' + 1 := by
        have := Entry.size_pos qe.entry
        cases g with
        | zero => omega
        | succ g' => exact ⟨g', rfl⟩
      by_cases h1 : limit ≤ disc.length
      · rw [bfsLoopFuel_full _ _ _ _ _ h1, bfsLoopFuel_full _ _ _ _ _ h1]
      · cases h2 : qe.entry.listing with
        | none =>
          rw [bfsLoopFuel_cons_none _ _ _ _ _ _ h1 h2,
            bfsLoopFuel_cons_none _ _ _ _ _ _ h1 h2]
          have := Entry.size_pos qe.entry
          exact ih g' rest disc (by omega) (by omega)
        | some cs =>
          rw [bfsLoopFuel_cons_some _ _ _ _ _ _ _ h1 h2,
            bfsLoopFuel_cons_some _ _ _ _ _ _ _ h1 h2]
          have hsz : qe.entry.size = 1 + Entry.sizeList cs :=
            Entry.size_of_listing_some h2
          have hw : queueWeight (stepEntries qe.path qe.depth maxDepth limit
              (sortByName cs) disc).2 ≤ Entry.sizeList cs := by
            have := stepEntries_snd_weight qe.path qe.depth maxDepth limit
              (sortByName cs) disc
            rwa [sortByName_sizeList] at this
          have happ : queueWeight (rest ++ (stepEntries qe.path qe.depth maxDepth limit
              (sortByName cs) disc).2) =
              queueWeight rest + queueWeight (stepEntries qe.path qe.depth maxDepth limit
                (sortByName cs) disc).2 := by
            simp [queueWeight]
          exact ih g' _ _ (by omega) (by omega)

/-- Name order used in ordering statements (Python `<=` on `str`). -/
def nameLE (a b : String) : Prop := strLe a b = true

/-- The paths recorded while scanning the children of one dequeued
directory: all direct children of one parent, with their final name
components in ascending name order. -/
def scanChunk (c : List DirPath) : Prop :=
  (∃ par, ∀ pth ∈ c, pth ≠ [] ∧ pth.dropLast = par) ∧
    List.Sorted nameLE (c.map (fun pth => pth.getLastD ""))

theorem chunk_scanChunk (q0 : DirPath) (cs : List Entry)
    (hcs : List.Sorted entryLE cs) (n : Nat) :
    scanChunk (((cs.filter is_tabular_file).map (fun e => q0 ++ [e.name])).take n) := by
  constructor
  · refine ⟨q0, fun pth hpth => ?_⟩
    obtain ⟨e, _, rfl⟩ := List.mem_map.mp (List.take_subset _ _ hpth)
    exact ⟨by simp, by simp⟩
  · have hmap : (((cs.filter is_tabular_file).map (fun e => q0 ++ [e.name])).take n).map
        (fun pth => pth.getLastD "") =
        ((cs.filter is_tabular_file).map Entry.name).take n := by
      rw [← List.map_take, List.map_map, ← List.map_take]
      apply List.map_congr_left
      intro e _
      simp
    rw [hmap]
    have h1 : List.Pairwise entryLE (cs.filter is_tabular_file) :=
      hcs.sublist (List.filter_sublist cs)
    have h2 : List.Pairwise nameLE ((cs.filter is_tabular_file).map Entry.name) :=
      List.pairwise_map.mpr h1
    exact h2.sublist (List.take_sublist _ _)

/-- The discovered list grows by whole `scanChunk`s: each loop iteration
appends the (sorted, same-parent) tabular children of one directory. -/
theorem bfsLoopFuel_chunks (maxDepth limit : Nat) :
    ∀ (f : Nat) (q : List QEntry) (disc : List DirPath),
      ∃ chunks : List (List DirPath),
        bfsLoopFuel maxDepth limit f q disc = disc ++ chunks.flatten ∧
        ∀ c ∈ chunks, scanChunk c := by
  intro f
  induction f with
  | zero =>
    intro q disc
    refine ⟨[], ?_, by simp⟩
    cases q <;> simp [bfsLoopFuel]
  | succ f ih =>
    intro q disc
    cases q with
    | nil => exact ⟨[], by simp [bfsLoopFuel_nil], by simp⟩
    | cons qe rest =>
      by_cases h1 : limit ≤ disc.length
      · exact ⟨[], by simp [bfsLoopFuel_full _ _ _ _ _ h1], by simp⟩
      · cases h2 : qe.entry.listing with
        | none =>
          rw [bfsLoopFuel_cons_none _ _ _ _ _ _ h1 h2]
          exact ih rest disc
        | some cs =>
          rw [bfsLoopFuel_cons_some _ _ _ _ _ _ _ h1 h2]
          obtain ⟨chunks, hjoin, hok⟩ := ih
            (rest ++ (stepEntries qe.path qe.depth maxDepth limit (sortByName cs) disc).2)
            (stepEntries qe.path qe.depth maxDepth limit (sortByName cs) disc).1
          refine ⟨((((sortByName cs).filter is_tabular_file).map
            (fun e => qe.path ++ [e.name])).take (limit - disc.length)) :: chunks, ?_, ?_⟩
          · rw [hjoin, stepEntries_fst]
            simp [List.append_assoc]
          · intro c hc
            rcases List.mem_cons.mp hc with rfl | hc
            · exact chunk_scanChunk qe.path (sortByName cs) (sortByName_sorted cs) _
            · exact hok c hc

/-- Breadth-first level monotonicity: with a FIFO queue whose depths are
nondecreasing, at most one level apart, and compatible with what has been
discovered so far, the discovered path lengths come out nondecreasing. -/
theorem bfsLoopFuel_lengths_sorted (maxDepth limit baseLen : Nat) :
    ∀ (f : Nat) (q : List QEntry) (disc : List DirPath),
      q.Pairwise (fun a b => a.depth ≤ b.depth) →
      (∀ qe ∈ q, qe.path.length = baseLen + qe.depth) →
      (∀ qe1 ∈ q, ∀ qe0, q.head? = some qe0 → qe1.depth ≤ qe0.depth + 1) →
      disc.Pairwise (fun a b => a.length ≤ b.length) →
      (∀ pth ∈ disc, ∀ qe ∈ q, pth.length ≤ baseLen + qe.depth + 1) →
      (bfsLoopFuel maxDepth limit f q disc).Pairwise
        (fun a b => a.length ≤ b.length) := by
  intro f
  induction f with
  | zero =>
    intro q disc _ _ _ hd1 _
    cases q with
    | nil => rw [bfsLoopFuel_nil]; exact hd1
    | cons qe rest => simpa only [bfsLoopFuel] using hd1
  | succ f ih =>
    intro q disc hq1 hq2 hq3 hd1 hd2
    cases q with
    | nil => rw [bfsLoopFuel_nil]; exact hd1
    | cons qe rest =>
      by_cases h1 : limit ≤ disc.length
      · rw [bfsLoopFuel_full _ _ _ _ _ h1]; exact hd1
      · have hqrest : ∀ x ∈ rest, qe.depth ≤ x.depth :=
          (List.pairwise_cons.mp hq1).1
        cases h2 : qe.entry.listing with
        | none =>
          rw [bfsLoopFuel_cons_none _ _ _ _ _ _ h1 h2]
          refine ih rest disc (List.pairwise_cons.mp hq1).2
            (fun x hx => hq2 x (List.mem_cons_of_mem _ hx)) ?_ hd1
            (fun pth hp x hx => hd2 pth hp x (List.mem_cons_of_mem _ hx))
          intro x hx qe0 hqe0
          have hqe0m : qe0 ∈ rest := List.mem_of_mem_head? hqe0
          have := hq3 x (List.mem_cons_of_mem _ hx) qe (rfl)
          have := hqrest qe0 hqe0m
          omega
        | some cs =>
          rw [bfsLoopFuel_cons_some _ _ _ _ _ _ _ h1 h2]
          set newQ := (stepEntries qe.path qe.depth maxDepth limit (sortByName cs) disc).2
            with hnewQ
          have hnewmem := stepEntries_snd_mem qe.path qe.depth maxDepth limit
            (sortByName cs) disc
          rw [← hnewQ] at hnewmem
          set chunk := (((sortByName cs).filter is_tabular_file).map
            (fun e => qe.path ++ [e.name])).take (limit - disc.length) with hchunk
          have hfst : (stepEntries qe.path qe.depth maxDepth limit (sortByName cs) disc).1 =
              disc ++ chunk := stepEntries_fst _ _ _ _ _ _
          have hqe2 := hq2 qe (List.mem_cons_self _ _)
          have hchunklen : ∀ pth ∈ chunk, pth.length = baseLen + qe.depth + 1 := by
            intro pth hpth
            obtain ⟨e, _, rfl⟩ := List.mem_map.mp (List.take_subset _ _ hpth)
            simp [hqe2]
          rw [hfst]
          refine ih _ _ ?_ ?_ ?_ ?_ ?_
          · rw [List.pairwise_append]
            refine ⟨(List.pairwise_cons.mp hq1).2, ?_, ?_⟩
            · exact List.pairwise_of_forall_mem_list (fun a ha b hb => by
                have := (hnewmem a ha).1
                have := (hnewmem b hb).1
                omega)
            · intro a ha b hb
              have := hq3 a (List.mem_cons_of_mem _ ha) qe rfl
              have := (hnewmem b hb).1
              omega
          · intro x hx
            rcases List.mem_append.mp hx with hx | hx
            · exact hq2 x (List.mem_cons_of_mem _ hx)
            · obtain ⟨hdep, _, hp, _⟩ := hnewmem x hx
              rw [hp]
              simp [hqe2, hdep]
              omega
          · intro x hx qe0 hqe0
            have hqe0m := List.mem_of_mem_head? hqe0
            have hqe0depth : qe.depth ≤ qe0.depth := by
              rcases List.mem_append.mp hqe0m with h | h
              · exact hqrest qe0 h
              · have := (hnewmem qe0 h).1
                omega
            rcases List.mem_append.mp hx with h | h
            · have := hq3 x (List.mem_cons_of_mem _ h) qe rfl
              omega
            · have := (hnewmem x h).1
              omega
          · rw [List.pairwise_append]
            refine ⟨hd1, ?_, ?_⟩
            · exact List.pairwise_of_forall_mem_list (fun a ha b hb => by
                rw [hchunklen a ha, hchunklen b hb])
            · intro a ha b hb
              have := hd2 a ha qe (List.mem_cons_self _ _)
              rw [hchunklen b hb]
              omega
          · intro pth hp x hx
            rcases List.mem_append.mp hp with hp | hp
            · rcases List.mem_append.mp hx with hx | hx
              · exact hd2 pth hp x (List.mem_cons_of_mem _ hx)
              · have := hd2 pth hp qe (List.mem_cons_self _ _)
                have := (hnewmem x hx).1
                omega
            · rw [hchunklen pth hp]
              rcases List.mem_append.mp hx with hx | hx
              · have := hqrest x hx
                omega
              · have := (hnewmem x hx).1
                omega

/-- Depth bound for a whole subdirectory scan: every discovered path is
`k` directory levels below the scanned root for some `k ≤ max_depth`
(a direct child is at level `0`, with path length `p.length + 1`). -/
theorem bounded_scan_mem_depth (p : DirPath) (root : Entry) (max_depth limit : Nat) :
    ∀ pth ∈ bounded_scan_directory p root max_depth limit,
      ∃ k, k ≤ max_depth ∧ pth.length = p.length + k + 1 := by
  intro pth hpth
  unfold bounded_scan_directory at hpth
  by_cases h : limit = 0
  · simp [h] at hpth
  · rw [if_neg h] at hpth
    have := bfsLoopFuel_mem_depth max_depth limit p.length root.size
      [⟨p, root, 0⟩] [] (by simp) pth hpth
    simpa using this

theorem bounded_scan_mem_under (p : DirPath) (root : Entry) (max_depth limit : Nat) :
    ∀ pth ∈ bounded_scan_directory p root max_depth limit,
      ∃ v, v ≠ [] ∧ pth = p ++ v := by
  intro pth hpth
  unfold bounded_scan_directory at hpth
  by_cases h : limit = 0
  · simp [h] at hpth
  · rw [if_neg h] at hpth
    have := bfsLoopFuel_mem_under max_depth limit p root.size
      [⟨p, root, 0⟩] [] (by simp) pth hpth
    rcases this with h | ⟨v, hv, rfl⟩
    · simp at h
    · exact ⟨v, hv, rfl⟩

theorem bounded_scan_chunks (p : DirPath) (root : Entry) (max_depth limit : Nat) :
    ∃ chunks : List (List DirPath),
      bounded_scan_directory p root max_depth limit = chunks.flatten ∧
      ∀ c ∈ chunks, scanChunk c := by
  unfold bounded_scan_directory
  by_cases h : limit = 0
  · exact ⟨[], by simp [h], by simp⟩
  · rw [if_neg h]
    obtain ⟨chunks, heq, hok⟩ := bfsLoopFuel_chunks max_depth limit root.size
      [⟨p, root, 0⟩] []
    exact ⟨chunks, by simpa using heq, hok⟩

theorem bounded_scan_lengths_sorted (p : DirPath) (root : Entry)
    (max_depth limit : Nat) :
    (bounded_scan_directory p root max_depth limit).Pairwise
      (fun a b => a.length ≤ b.length) := by
  unfold bounded_scan_directory
  by_cases h : limit = 0
  · simp [h]
  · rw [if_neg h]
    exact bfsLoopFuel_lengths_sorted max_depth limit p.length root.size
      [⟨p, root, 0⟩] [] (by simp) (by simp) (by simp) (by simp) (by simp)

/-! ### Lemmas about the subdirectory loop and `discover_tabular_files` -/

theorem subdirLoop_extends (max_files subdir_max_depth : Nat) :
    ∀ (dirs : List Entry) (disc : List DirPath),
      ∃ ext, subdirLoop max_files subdir_max_depth dirs disc = disc ++ ext := by
  intro dirs
  induction dirs with
  | nil => exact fun disc => ⟨[], by simp [subdirLoop]⟩
  | cons s rest ih =>
    intro disc
    by_cases h : max_files - disc.length = 0
    · exact ⟨[], by simp [subdirLoop, h]⟩
    · obtain ⟨ext, hext⟩ := ih (disc ++ bounded_scan_directory [s.name] s
        subdir_max_depth (max_files - disc.length))
      refine ⟨bounded_scan_directory [s.name] s subdir_max_depth
        (max_files - disc.length) ++ ext, ?_⟩
      simp only [subdirLoop, if_neg h]
      rw [hext, List.append_assoc]

theorem subdirLoop_length_le (max_files subdir_max_depth : Nat) :
    ∀ (dirs : List Entry) (disc : List DirPath), disc.length ≤ max_files →
      (subdirLoop max_files subdir_max_depth dirs disc).length ≤ max_files := by
  intro dirs
  induction dirs with
  | nil => intro disc h; simpa [subdirLoop]
  | cons s rest ih =>
    intro disc h
    by_cases h0 : max_files - disc.length = 0
    · simpa [subdirLoop, h0]
    · simp only [subdirLoop, if_neg h0]
      refine ih _ ?_
      have := bounded_scan_length_le [s.name] s subdir_max_depth
        (max_files - disc.length)
      simp only [List.length_append]
      omega

/-- Decomposition of the subdirectory phase: the loop appends one block
per processed allowlisted directory (processed in list order, possibly
stopping early on budget exhaustion); each block consists of paths inside
that directory, has breadth-first nondecreasing path lengths, and splits
into sorted same-parent chunks. -/
theorem subdirLoop_decomp (max_files subdir_max_depth : Nat) :
    ∀ (dirs : List Entry) (disc : List DirPath),
      ∃ (blocks : List (List DirPath)) (names : List String),
        subdirLoop max_files subdir_max_depth dirs disc = disc ++ blocks.flatten ∧
        names.Sublist (dirs.map Entry.name) ∧
        List.Forall₂ (fun b nm => ∀ pth ∈ b, ∃ t, t ≠ [] ∧ pth = nm :: t) blocks names ∧
        ∀ b ∈ blocks, b.Pairwise (fun a c => a.length ≤ c.length) ∧
          ∃ chunks : List (List DirPath), b = chunks.flatten ∧ ∀ c ∈ chunks, scanChunk c := by
  intro dirs
  induction dirs with
  | nil =>
    exact fun disc => ⟨[], [], by simp [subdirLoop], by simp, List.Forall₂.nil, by simp⟩
  | cons s rest ih =>
    intro disc
    by_cases h : max_files - disc.length = 0
    · exact ⟨[], [], by simp [subdirLoop, h], by simp, List.Forall₂.nil, by simp⟩
    · set blk := bounded_scan_directory [s.name] s subdir_max_depth
        (max_files - disc.length) with hblk
      obtain ⟨blocks, names, heq, hsub, hall, hprops⟩ := ih (disc ++ blk)
      refine ⟨blk :: blocks, s.name :: names, ?_, ?_, ?_, ?_⟩
      · simp only [subdirLoop, if_neg h, ← hblk]
        rw [heq, List.flatten_cons, List.append_assoc]
      · simpa using List.Sublist.cons₂ s.name hsub
      · refine List.Forall₂.cons ?_ hall
        intro pth hpth
        obtain ⟨v, hv, rfl⟩ := bounded_scan_mem_under [s.name] s subdir_max_depth
          (max_files - disc.length) pth (by rwa [hblk] at hpth)
        exact ⟨v, hv, rfl⟩
      · intro b hb
        rcases List.mem_cons.mp hb with rfl | hb
        · exact ⟨by rw [hblk]; exact bounded_scan_lengths_sorted _ _ _ _,
            by rw [hblk]; exact bounded_scan_chunks _ _ _ _⟩
        · exact hprops b hb

theorem findChild_name {rootChildren : List Entry} {nm : String} {e : Entry}
    (h : findChild rootChildren nm = some e) : e.name = nm := by
  have := List.find?_some h
  exact eq_of_beq this

theorem allow_names_sublist (rootChildren : List Entry) :
    ((list_allowlisted_directories rootChildren).map Entry.name).Sublist
      ALLOWED_SUBDIRECTORIES := by
  unfold list_allowlisted_directories
  generalize ALLOWED_SUBDIRECTORIES = L
  induction L with
  | nil => simp
  | cons nm L ih =>
    rw [List.filterMap_cons]
    cases hfc : findChild rootChildren nm with
    | none => exact ih.cons nm
    | some e =>
      by_cases hd : e.isDir = true
      · have hn : e.name = nm := findChild_name hfc
        simp only [hd, if_true, List.map_cons, hn]
        exact ih.cons₂ nm
      · simp only [hd, if_false]
        exact ih.cons nm

theorem list_root_mem_length_one (rootChildren : List Entry) :
    ∀ pth ∈ list_root_tabular_files rootChildren, pth.length = 1 := by
  intro pth hpth
  obtain ⟨e, _, rfl⟩ := List.mem_map.mp hpth
  rfl

theorem root_names_sorted (rootChildren : List Entry) :
    List.Sorted nameLE
      ((list_root_tabular_files rootChildren).map (fun pth => pth.headD "")) := by
  unfold list_root_tabular_files
  rw [List.map_map]
  have h1 : List.Pairwise entryLE ((sortByName rootChildren).filter is_tabular_file) :=
    (sortByName_sorted rootChildren).sublist (List.filter_sublist _)
  exact List.pairwise_map.mpr h1

/-- The candidate list component of `discover_tabular_files`, by phase. -/
theorem discover_fst (rootChildren : List Entry) (max_files subdir_max_depth : Nat) :
    (discover_tabular_files rootChildren max_files subdir_max_depth).1 =
      if max_files ≤ (list_root_tabular_files rootChildren).length then
        (list_root_tabular_files rootChildren).take max_files
      else if (list_allowlisted_directories rootChildren).isEmpty then
        list_root_tabular_files rootChildren
      else
        subdirLoop max_files subdir_max_depth
          (list_allowlisted_directories rootChildren)
          (list_root_tabular_files rootChildren) := by
  unfold discover_tabular_files
  by_cases h1 : max_files ≤ (list_root_tabular_files rootChildren).length
  · simp [h1]
  · rw [if_neg h1, if_neg h1]
    by_cases h2 : (list_allowlisted_directories rootChildren).isEmpty
    · simp [h2]
    · simp only [if_neg h2]
      split
      · rfl
      · split <;> rfl

/-- The warnings component of `discover_tabular_files`, by phase. -/
theorem discover_snd (rootChildren : List Entry) (max_files subdir_max_depth : Nat) :
    (discover_tabular_files rootChildren max_files subdir_max_depth).2 =
      if max_files ≤ (list_root_tabular_files rootChildren).length then []
      else if (list_allowlisted_directories rootChildren).isEmpty then
        [noAllowlistedDirsWarning]
      else if max_files - (subdirLoop max_files subdir_max_depth
          (list_allowlisted_directories rootChildren)
          (list_root_tabular_files rootChildren)).length = 0 then
        [maxFilesReachedWarning max_files]
      else if (subdirLoop max_files subdir_max_depth
          (list_allowlisted_directories rootChildren)
          (list_root_tabular_files rootChildren)).isEmpty then
        [noTabularFilesWarning]
      else [] := by
  unfold discover_tabular_files
  by_cases h1 : max_files ≤ (list_root_tabular_files rootChildren).length
  · simp [h1]
  · rw [if_neg h1, if_neg h1]
    by_cases h2 : (list_allowlisted_directories rootChildren).isEmpty
    · simp [h2]
    · simp only [if_neg h2]
      split
      · rfl
      · split <;> rfl

/-! ## Claim theorems -/

/-- Claim C1: for every dataset root, every `maxFiles ≥ 1` and every
`subdirMaxDepth ≥ 0`, `discover` returns at most `maxFiles` candidate
files, regardless of how many tabular files exist in the tree. -/
theorem discover_never_exceeds_max_files (rootChildren : List Entry)
    (max_files subdir_max_depth : Nat) (_hm : 1 ≤ max_files) :
    (discover_tabular_files rootChildren max_files subdir_max_depth).1.length ≤
      max_files := by
  rw [discover_fst]
  by_cases h1 : max_files ≤ (list_root_tabular_files rootChildren).length
  · rw [if_pos h1]
    simp
  · rw [if_neg h1]
    by_cases h2 : (list_allowlisted_directories rootChildren).isEmpty
    · rw [if_pos h2]
      omega
    · rw [if_neg h2]
      exact subdirLoop_length_le _ _ _ _ (by omega)

/-- Claim C1 witness: a concrete tree with more tabular files than the
budget. -/
theorem discover_never_exceeds_max_files_witness :
    (1 : Nat) ≤ 2 ∧
    (discover_tabular_files
      [Entry.file "a.csv", Entry.file "b.csv",
       Entry.dir "train" (some [Entry.file "c.csv"])] 2 1).1.length ≤ 2 :=
  ⟨by decide, discover_never_exceeds_max_files _ 2 1 (by decide)⟩

/-- Claim C2 counterexample: the root scan alone already meets
`maxFiles = 1` (two root-level CSV files), yet discovery returns with an
empty warnings list — no `max_files_reached` warning is emitted on the
early-return path, contrary to the claim. -/
theorem discover_root_saturation_missing_warning_cex :
    1 ≤ (list_root_tabular_files [Entry.file "a.csv", Entry.file "b.csv"]).length ∧
    (discover_tabular_files [Entry.file "a.csv", Entry.file "b.csv"] 1 2).1 =
      [["a.csv"]] ∧
    (discover_tabular_files [Entry.file "a.csv", Entry.file "b.csv"] 1 2).2 = [] := by
  refine ⟨by decide, by decide, by decide⟩

/-- Claim C2 (amended): if the root-level scan alone finds at least
`maxFiles` tabular files, `discover` returns exactly the first `maxFiles`
sorted root-level candidates, performs no subdirectory scan, and returns
an *empty* warnings list (the `max_files_reached` warning is not emitted
on this early-return path). -/
theorem discover_root_saturation (rootChildren : List Entry)
    (max_files subdir_max_depth : Nat)
    (h : max_files ≤ (list_root_tabular_files rootChildren).length) :
    discover_tabular_files rootChildren max_files subdir_max_depth =
      ((list_root_tabular_files rootChildren).take max_files, []) ∧
    ∀ pth ∈ (discover_tabular_files rootChildren max_files subdir_max_depth).1,
      pth.length = 1 := by
  constructor
  · unfold discover_tabular_files
    rw [if_pos h]
  · intro pth hpth
    rw [discover_fst, if_pos h] at hpth
    exact list_root_mem_length_one _ pth (List.take_subset _ _ hpth)

/-- Claim C2 witness (for the amended statement): fifteen root CSV files
with `maxFiles = 12`. -/
theorem discover_root_saturation_witness :
    (12 ≤ (list_root_tabular_files
      ((List.range 15).map (fun i => Entry.file (toString i ++ ".csv")))).length) ∧
    discover_tabular_files
      ((List.range 15).map (fun i => Entry.file (toString i ++ ".csv"))) 12 2 =
      ((list_root_tabular_files
        ((List.range 15).map (fun i => Entry.file (toString i ++ ".csv")))).take 12,
        []) := by
  have h : 12 ≤ (list_root_tabular_files
      ((List.range 15).map (fun i => Entry.file (toString i ++ ".csv")))).length := by
    decide
  exact ⟨h, (discover_root_saturation _ 12 2 h).1⟩

/-- Claim C8: if the root scan stays under budget and no allowlisted
subdirectory exists, `discover` returns the root-phase results unchanged
and exactly one `no_allowlisted_dirs` warning (no error, and no
`no_tabular_files_found` warning even when nothing was found). -/
theorem discover_no_allowlisted_dirs (rootChildren : List Entry)
    (max_files subdir_max_depth : Nat)
    (h1 : (list_root_tabular_files rootChildren).length < max_files)
    (h2 : list_allowlisted_directories rootChildren = []) :
    discover_tabular_files rootChildren max_files subdir_max_depth =
      (list_root_tabular_files rootChildren, [noAllowlistedDirsWarning]) := by
  unfold discover_tabular_files
  rw [if_neg (by omega), h2]
  rfl

/-- Claim C8 witness: a root with no tabular files and no allowlisted
subdirectories yields the empty candidate list and exactly the
`no_allowlisted_dirs` warning. -/
theorem discover_no_allowlisted_dirs_witness :
    (list_root_tabular_files [Entry.file "readme.txt"]).length < 3 ∧
    list_allowlisted_directories [Entry.file "readme.txt"] = [] ∧
    discover_tabular_files [Entry.file "readme.txt"] 3 2 =
      ([], [noAllowlistedDirsWarning]) :=
  ⟨by decide, rfl,
    discover_no_allowlisted_dirs [Entry.file "readme.txt"] 3 2 (by decide) rfl⟩

/-- Claim C4: a file inside a scanned subdirectory is discovered only if
it lies at most `max_depth` directory levels below the subdirectory root
(a path `p ++ [d1, ..., dk, f]` lies `k` levels below the root scanned at
prefix `p`, so its segment count is at most `p.length + max_depth + 1`);
in particular depth `0` only ever yields direct children, and depth `2`
never yields a file three levels down. -/
theorem bounded_scan_depth_bound (p : DirPath) (root : Entry)
    (max_depth limit : Nat) (pth : DirPath)
    (h : pth ∈ bounded_scan_directory p root max_depth limit) :
    pth.length ≤ p.length + max_depth + 1 ∧
    (max_depth = 0 → pth.length = p.length + 1) ∧
    (max_depth = 2 → pth.length ≠ p.length + 4) := by
  obtain ⟨k, hk, hlen⟩ := bounded_scan_mem_depth p root max_depth limit pth h
  exact ⟨by omega, fun h0 => by omega, fun h2 => by omega⟩

/-- Claim C4 witness: a file one level below a `train` root, scanned with
depth bound `1`. -/
theorem bounded_scan_depth_bound_witness :
    (["train", "x", "b.csv"] ∈ bounded_scan_directory ["train"]
      (Entry.dir "train" (some [Entry.file "a.csv",
        Entry.dir "x" (some [Entry.file "b.csv"])])) 1 10) ∧
    ((["train", "x", "b.csv"] : DirPath).length ≤ (["train"] : DirPath).length + 1 + 1 ∧
      (1 = 0 → (["train", "x", "b.csv"] : DirPath).length = (["train"] : DirPath).length + 1) ∧
      (1 = 2 → (["train", "x", "b.csv"] : DirPath).length ≠ (["train"] : DirPath).length + 4)) :=
  ⟨by decide,
    bounded_scan_depth_bound ["train"]
      (Entry.dir "train" (some [Entry.file "a.csv",
        Entry.dir "x" (some [Entry.file "b.csv"])])) 1 10
      ["train", "x", "b.csv"] (by decide)⟩

/-- Claim C9: an `OSError` while listing a directory (modelled by a
`none` listing) makes the loop skip exactly that queue element and
continue with the remaining queue — the scan is total, so nothing is
raised — and discovery has no warning code for skipped directories: its
warnings only ever carry the three codes below. -/
theorem bounded_scan_skips_unreadable_dir :
    (∀ (maxDepth limit f : Nat) (pth : DirPath) (nm : String) (dp : Nat)
      (rest : List QEntry) (disc : List DirPath),
      bfsLoopFuel maxDepth limit (f + 1) (⟨pth, .dir nm none, dp⟩ :: rest) disc =
        bfsLoopFuel maxDepth limit f rest disc) ∧
    (∀ (rootChildren : List Entry) (max_files subdir_max_depth : Nat)
      (w : InspectionWarning),
      w ∈ (discover_tabular_files rootChildren max_files subdir_max_depth).2 →
      w.code = "no_allowlisted_dirs" ∨ w.code = "max_files_reached" ∨
        w.code = "no_tabular_files_found") := by
  constructor
  · intro maxDepth limit f pth nm dp rest disc
    by_cases h : limit ≤ disc.length
    · rw [bfsLoopFuel_full _ _ _ _ _ h, bfsLoopFuel_full _ _ _ _ _ h]
    · exact bfsLoopFuel_cons_none _ _ _ _ _ _ h rfl
  · intro rootChildren max_files subdir_max_depth w hw
    rw [discover_snd] at hw
    by_cases h1 : max_files ≤ (list_root_tabular_files rootChildren).length
    · rw [if_pos h1] at hw
      simp at hw
    · rw [if_neg h1] at hw
      by_cases h2 : (list_allowlisted_directories rootChildren).isEmpty
      · rw [if_pos h2] at hw
        rcases List.mem_singleton.mp hw with rfl
        exact Or.inl rfl
      · rw [if_neg h2] at hw
        by_cases h3 : max_files - (subdirLoop max_files subdir_max_depth
            (list_allowlisted_directories rootChildren)
            (list_root_tabular_files rootChildren)).length = 0
        · rw [if_pos h3] at hw
          rcases List.mem_singleton.mp hw with rfl
          exact Or.inr (Or.inl rfl)
        · rw [if_neg h3] at hw
          by_cases h4 : (subdirLoop max_files subdir_max_depth
              (list_allowlisted_directories rootChildren)
              (list_root_tabular_files rootChildren)).isEmpty
          · rw [if_pos h4] at hw
            rcases List.mem_singleton.mp hw with rfl
            exact Or.inr (Or.inr rfl)
          · rw [if_neg h4] at hw
            simp at hw

/-- Claim C9 witness: skipping an unreadable directory at the head of a
concrete queue, and the warning-code property at a concrete run. -/
theorem bounded_scan_skips_unreadable_dir_witness :
    (bfsLoopFuel 2 5 3 [⟨["train"], .dir "x" none, 0⟩] [] =
      bfsLoopFuel 2 5 2 [] []) ∧
    (noAllowlistedDirsWarning.code = "no_allowlisted_dirs" ∨
      noAllowlistedDirsWarning.code = "max_files_reached" ∨
      noAllowlistedDirsWarning.code = "no_tabular_files_found") :=
  ⟨bounded_scan_skips_unreadable_dir.1 2 5 2 ["train"] "x" 0 [] [],
    bounded_scan_skips_unreadable_dir.2 [] 1 0 noAllowlistedDirsWarning (by decide)⟩

theorem stepEntries_snd_depth_ge (p : DirPath) (depth maxDepth limit : Nat)
    (es : List Entry) (disc : List DirPath) (h : ¬ depth < maxDepth) :
    (stepEntries p depth maxDepth limit es disc).2 = [] := by
  rcases heq : (stepEntries p depth maxDepth limit es disc).2 with _ | ⟨qe, rest⟩
  · rfl
  · exfalso
    have := stepEntries_snd_mem p depth maxDepth limit es disc qe (by rw [heq]; simp)
    exact h this.2.2.2

/-- Claim C10: with `subdirMaxDepth = 0`, the scan of an allowlisted
subdirectory still yields that subdirectory's direct tabular children
(sorted, truncated by the budget) — depth `0` only prevents descent below
the subdirectory root; when budget remains after the root phase these
children are part of the discovery result, even though the caller-level
`validate_inputs` warning `subdir_scan_disabled` says only root-level
files are inspected. -/
theorem depth_zero_scans_direct_children :
    (∀ (nm : String) (cs : List Entry) (limit : Nat), limit ≠ 0 →
      bounded_scan_directory [nm] (.dir nm (some cs)) 0 limit =
        (((sortByName cs).filter is_tabular_file).map
          (fun e => [nm, e.name])).take limit) ∧
    (∀ (rootChildren : List Entry) (max_files : Nat) (s : Entry)
      (others : List Entry),
      list_allowlisted_directories rootChildren = s :: others →
      (list_root_tabular_files rootChildren).length < max_files →
      ∃ rest, (discover_tabular_files rootChildren max_files 0).1 =
        list_root_tabular_files rootChildren ++
        (bounded_scan_directory [s.name] s 0
          (max_files - (list_root_tabular_files rootChildren).length) ++ rest)) ∧
    validate_depth_warnings 0 = [⟨"subdir_scan_disabled",
      "Subdirectory scanning disabled; only root-level files are inspected."⟩] := by
  refine ⟨?_, ?_, rfl⟩
  · intro nm cs limit hlimit
    unfold bounded_scan_directory
    rw [if_neg hlimit]
    have hsz : (Entry.dir nm (some cs)).size = Entry.sizeList cs + 1 := by
      simp [Entry.size]
      omega
    rw [hsz]
    rw [bfsLoopFuel_cons_some 0 limit (Entry.sizeList cs)
      ⟨[nm], .dir nm (some cs), 0⟩ [] [] cs (by simpa using hlimit) rfl]
    rw [stepEntries_snd_depth_ge _ _ _ _ _ _ (by omega)]
    rw [List.nil_append, bfsLoopFuel_nil, stepEntries_fst]
    simp
  · intro rootChildren max_files s others hallow hroot
    rw [discover_fst, if_neg (by omega), hallow]
    have hne : ¬ (s :: others).isEmpty := by simp
    rw [if_neg hne]
    have hb : ¬ max_files - (list_root_tabular_files rootChildren).length = 0 := by
      omega
    simp only [subdirLoop, if_neg hb]
    obtain ⟨ext, hext⟩ := subdirLoop_extends max_files 0 others
      (list_root_tabular_files rootChildren ++
        bounded_scan_directory [s.name] s 0
          (max_files - (list_root_tabular_files rootChildren).length))
    exact ⟨ext, by rw [hext, List.append_assoc]⟩

/-- Claim C10 witness: at depth `0` the direct child `v.csv` of the
allowlisted `val` directory is still discovered. -/
theorem depth_zero_scans_direct_children_witness :
    (bounded_scan_directory ["val"]
      (.dir "val" (some [Entry.file "v.csv", Entry.file "a.txt"])) 0 5 =
      (((sortByName [Entry.file "v.csv", Entry.file "a.txt"]).filter
        is_tabular_file).map (fun e => ["val", e.name])).take 5) ∧
    (∃ rest,
      (discover_tabular_files
        [Entry.file "r.csv",
         Entry.dir "val" (some [Entry.file "v.csv", Entry.file "a.txt"])] 3 0).1 =
      list_root_tabular_files
        [Entry.file "r.csv",
         Entry.dir "val" (some [Entry.file "v.csv", Entry.file "a.txt"])] ++
      (bounded_scan_directory ["val"]
        (.dir "val" (some [Entry.file "v.csv", Entry.file "a.txt"])) 0
        (3 - (list_root_tabular_files
          [Entry.file "r.csv",
           Entry.dir "val" (some [Entry.file "v.csv", Entry.file "a.txt"])]).length)
        ++ rest)) :=
  ⟨depth_zero_scans_direct_children.1 "val" [Entry.file "v.csv", Entry.file "a.txt"]
      5 (by decide),
    depth_zero_scans_direct_children.2.1 _ 3
      (.dir "val" (some [Entry.file "v.csv", Entry.file "a.txt"])) [] rfl (by decide)⟩

theorem build_parquet_fallback_options_ne_nil (duckdbPresent parquetToolsPresent : Bool)
    (path : PPath) :
    (build_parquet_fallback duckdbPresent parquetToolsPresent path).options ≠ [] := by
  unfold build_parquet_fallback
  cases duckdbPresent <;> cases parquetToolsPresent <;> simp

/-- Claim C5: the columnar summary's status discriminates its payload:
`ok` carries no error and no fallback; `fallback-required` and
`read-error` carry an error message and a fallback whose options list is
non-empty (the generic `uv` suggestion is always present); and the status
is always one of the three. -/
theorem parquet_status_invariant (env : ParquetReadEnv) (path : PPath)
    (sample_rows : Nat) :
    ((inspect_parquet_file env path sample_rows).status = "ok" →
      (inspect_parquet_file env path sample_rows).error = none ∧
      (inspect_parquet_file env path sample_rows).fallback = none) ∧
    ((inspect_parquet_file env path sample_rows).status = "fallback-required" ∨
        (inspect_parquet_file env path sample_rows).status = "read-error" →
      (inspect_parquet_file env path sample_rows).error ≠ none ∧
      ∃ fb, (inspect_parquet_file env path sample_rows).fallback = some fb ∧
        fb.options ≠ []) ∧
    ((inspect_parquet_file env path sample_rows).status = "ok" ∨
      (inspect_parquet_file env path sample_rows).status = "fallback-required" ∨
      (inspect_parquet_file env path sample_rows).status = "read-error") := by
  unfold inspect_parquet_file
  by_cases ha : env.pyarrowAvailable
  · simp only [ha, Bool.not_true, Bool.false_eq_true, if_false]
    cases ho : env.openResult with
    | error e =>
      refine ⟨by intro h; simp at h, ?_, by simp⟩
      intro _
      exact ⟨by simp, build_parquet_fallback env.duckdbPresent env.parquetToolsPresent path,
        rfl, build_parquet_fallback_options_ne_nil _ _ _⟩
    | ok schema =>
      cases hb : env.batchResult with
      | error e =>
        refine ⟨by intro h; simp at h, ?_, by simp⟩
        intro _
        exact ⟨by simp, build_parquet_fallback env.duckdbPresent env.parquetToolsPresent path,
          rfl, build_parquet_fallback_options_ne_nil _ _ _⟩
      | ok ob =>
        cases ob with
        | none =>
          refine ⟨fun _ => ⟨rfl, rfl⟩, ?_, by simp⟩
          intro h
          rcases h with h | h <;> simp at h
        | some batch =>
          refine ⟨fun _ => ⟨rfl, rfl⟩, ?_, by simp⟩
          intro h
          rcases h with h | h <;> simp at h
  · simp only [ha, Bool.not_false, if_true]
    refine ⟨by intro h; simp at h, ?_, by simp⟩
    intro _
    exact ⟨by simp, build_parquet_fallback env.duckdbPresent env.parquetToolsPresent path,
      rfl, build_parquet_fallback_options_ne_nil _ _ _⟩

/-- Claim C5 witness: with `pyarrow` unavailable, the concrete summary is
`fallback-required` with an error message and non-empty fallback options. -/
theorem parquet_status_invariant_witness :
    (inspect_parquet_file
      { duckdbPresent := false, parquetToolsPresent := false,
        pyarrowAvailable := false, openResult := .error "unused",
        batchResult := .error "unused" } ⟨"/d/f.parquet", "/d"⟩ 9).error ≠ none ∧
    ∃ fb, (inspect_parquet_file
      { duckdbPresent := false, parquetToolsPresent := false,
        pyarrowAvailable := false, openResult := .error "unused",
        batchResult := .error "unused" } ⟨"/d/f.parquet", "/d"⟩ 9).fallback = some fb ∧
      fb.options ≠ [] :=
  (parquet_status_invariant
    { duckdbPresent := false, parquetToolsPresent := false,
      pyarrowAvailable := false, openResult := .error "unused",
      batchResult := .error "unused" } ⟨"/d/f.parquet", "/d"⟩ 9).2.1 (Or.inl (by decide))

/-! ## Lemmas about the CSV inspector's dict operations -/

theorem dict_any_iff_mem_keys (d : List (String × Nat)) (k : String) :
    d.any (fun kv => kv.1 == k) = true ↔ k ∈ d.map Prod.fst := by
  rw [List.any_eq_true]
  constructor
  · rintro ⟨kv, hkv, hb⟩
    exact List.mem_map.mpr ⟨kv, hkv, eq_of_beq hb⟩
  · intro h
    obtain ⟨kv, hkv, hEq⟩ := List.mem_map.mp h
    exact ⟨kv, hkv, by simp [hEq]⟩

theorem dset_keys_of_mem {d : List (String × Nat)} {k : String} (v : Nat)
    (h : k ∈ d.map Prod.fst) : (dset d k v).map Prod.fst = d.map Prod.fst := by
  unfold dset
  rw [if_pos ((dict_any_iff_mem_keys d k).mpr h)]
  rw [List.map_map]
  apply List.map_congr_left
  intro kv _
  by_cases hb : kv.1 == k
  · simp [Function.comp, hb, eq_of_beq hb]
  · simp [Function.comp, hb]

theorem dset_keys_of_not_mem {d : List (String × Nat)} {k : String} (v : Nat)
    (h : k ∉ d.map Prod.fst) : (dset d k v).map Prod.fst = d.map Prod.fst ++ [k] := by
  unfold dset
  rw [if_neg (fun hc => h ((dict_any_iff_mem_keys d k).mp hc))]
  simp

theorem dset_keys_mem_iff {d : List (String × Nat)} {k x : String} (v : Nat) :
    x ∈ (dset d k v).map Prod.fst ↔ x ∈ d.map Prod.fst ∨ x = k := by
  by_cases h : k ∈ d.map Prod.fst
  · rw [dset_keys_of_mem v h]
    constructor
    · exact Or.inl
    · rintro (hx | rfl)
      · exact hx
      · exact h
  · rw [dset_keys_of_not_mem v h]
    simp

theorem find?_map_dset (d : List (String × Nat)) (k : String) (v : Nat) :
    (d.map (fun kv => if kv.1 == k then (k, v) else kv)).find? (fun kv => kv.1 == k) =
      (d.find? (fun kv => kv.1 == k)).map (fun _ => (k, v)) := by
  induction d with
  | nil => rfl
  | cons kv d ih =>
    by_cases hb : (kv.1 == k) = true
    · rw [List.map_cons, if_pos hb, List.find?_cons, List.find?_cons]
      simp [hb]
    · rw [List.map_cons, if_neg hb, List.find?_cons, List.find?_cons]
      have hb2 : (kv.1 == k) = false := by
        simpa using hb
      simp only [hb2]
      exact ih

theorem dget_dset_self (d : List (String × Nat)) (k : String) (v : Nat) :
    dget (dset d k v) k = v := by
  by_cases h : d.any (fun kv => kv.1 == k)
  · rw [show dset d k v = d.map (fun kv => if kv.1 == k then (k, v) else kv) by
      unfold dset; rw [if_pos h]]
    unfold dget
    rw [find?_map_dset]
    rcases hfind : d.find? (fun kv => kv.1 == k) with _ | kv2
    · exfalso
      obtain ⟨kv, hkv1, hkv2⟩ := List.any_eq_true.mp h
      rw [List.find?_eq_none] at hfind
      exact hfind kv hkv1 hkv2
    · rw [hfind]
      rfl
  · rw [show dset d k v = d ++ [(k, v)] by unfold dset; rw [if_neg h]]
    unfold dget
    rw [List.find?_append]
    have hnone : d.find? (fun kv => kv.1 == k) = none := by
      rw [List.find?_eq_none]
      intro kv hkv hb
      exact h (List.any_eq_true.mpr ⟨kv, hkv, hb⟩)
    rw [hnone]
    simp

theorem dget_dset_ne (d : List (String × Nat)) (k : String) (v : Nat)
    (x : String) (h : x ≠ k) : dget (dset d k v) x = dget d x := by
  by_cases hany : d.any (fun kv => kv.1 == k)
  · rw [show dset d k v = d.map (fun kv => if kv.1 == k then (k, v) else kv) by
      unfold dset; rw [if_pos hany]]
    unfold dget
    have hfind : (d.map (fun kv => if kv.1 == k then (k, v) else kv)).find?
        (fun kv => kv.1 == x) = d.find? (fun kv => kv.1 == x) := by
      clear hany
      induction d with
      | nil => rfl
      | cons kv d ih =>
        by_cases hb : (kv.1 == k) = true
        · have hne1 : (k == x) = false := by
            rw [beq_eq_false_iff_ne]
            exact fun hc => h hc.symm
          have hne2 : (kv.1 == x) = false := by
            rw [beq_eq_false_iff_ne, eq_of_beq hb]
            exact fun hc => h hc.symm
          rw [List.map_cons, if_pos hb, List.find?_cons, List.find?_cons]
          simp only [hne1, hne2]
          exact ih
        · rw [List.map_cons, if_neg hb, List.find?_cons, List.find?_cons]
          by_cases hx : (kv.1 == x) = true
          · simp only [hx]
          · have hx2 : (kv.1 == x) = false := by
              simpa using hx
            simp only [hx2]
            exact ih
    rw [hfind]
  · rw [show dset d k v = d ++ [(k, v)] by unfold dset; rw [if_neg hany]]
    unfold dget
    rw [List.find?_append]
    have hone : ([((k, v) : String × Nat)].find? (fun kv => kv.1 == x)) = none := by
      have hne : (k == x) = false := by
        rw [beq_eq_false_iff_ne]
        exact fun hc => h hc.symm
      rw [List.find?_cons, List.find?_nil]
      simp only [hne]
    rw [hone]
    cases d.find? (fun kv => kv.1 == x) <;> rfl

theorem dget_rowFold_not_mem (P : String → Bool) (cols : List String) :
    ∀ (d : List (String × Nat)) (k : String), k ∉ cols →
      dget (rowFold P cols d) k = dget d k := by
  induction cols with
  | nil => intro d k _; rfl
  | cons c cols ih =>
    intro d k hk
    have hk1 : k ≠ c := fun hc => hk (hc ▸ List.mem_cons_self _ _)
    have hk2 : k ∉ cols := fun hc => hk (List.mem_cons_of_mem _ hc)
    unfold rowFold
    rw [List.foldl_cons]
    by_cases hP : P c
    · rw [if_pos hP]
      rw [show (cols.foldl (fun acc c => if P c then dset acc c (dget acc c + 1) else acc)
        (dset d c (dget d c + 1))) = rowFold P cols (dset d c (dget d c + 1)) from rfl]
      rw [ih _ k hk2, dget_dset_ne _ _ _ _ hk1]
    · rw [if_neg hP]
      exact ih d k hk2

theorem dget_rowFold_le (P : String → Bool) (cols : List String) (hnd : cols.Nodup) :
    ∀ (d : List (String × Nat)) (k : String),
      dget (rowFold P cols d) k ≤ dget d k + 1 := by
  induction cols with
  | nil => intro d k; simp [rowFold]
  | cons c cols ih =>
    intro d k
    have hc : c ∉ cols := (List.nodup_cons.mp hnd).1
    have hnd2 : cols.Nodup := (List.nodup_cons.mp hnd).2
    unfold rowFold
    rw [List.foldl_cons]
    set acc1 := if P c then dset d c (dget d c + 1) else d with hacc1
    have hfold : cols.foldl (fun acc c => if P c then dset acc c (dget acc c + 1) else acc)
        acc1 = rowFold P cols acc1 := rfl
    rw [hfold]
    by_cases hk : k = c
    · subst hk
      rw [dget_rowFold_not_mem P cols acc1 k hc]
      rw [hacc1]
      by_cases hP : P k
      · rw [if_pos hP, dget_dset_self]
      · rw [if_neg hP]
        omega
    · have : dget acc1 k = dget d k := by
        rw [hacc1]
        by_cases hP : P c
        · rw [if_pos hP, dget_dset_ne _ _ _ _ hk]
        · rw [if_neg hP]
      calc dget (rowFold P cols acc1) k ≤ dget acc1 k + 1 := ih hnd2 acc1 k
        _ = dget d k + 1 := by rw [this]

theorem rowFold_keys_mem (P : String → Bool) (cols : List String) :
    ∀ (d : List (String × Nat)) (x : String),
      (x ∈ (rowFold P cols d).map Prod.fst ↔
        x ∈ d.map Prod.fst ∨ (x ∈ cols ∧ P x = true)) := by
  induction cols with
  | nil => intro d x; simp [rowFold]
  | cons c cols ih =>
    intro d x
    unfold rowFold
    rw [List.foldl_cons]
    by_cases hP : P c
    · rw [if_pos hP]
      rw [show (cols.foldl (fun acc c => if P c then dset acc c (dget acc c + 1) else acc)
        (dset d c (dget d c + 1))) = rowFold P cols (dset d c (dget d c + 1)) from rfl]
      rw [ih]
      rw [dset_keys_mem_iff]
      constructor
      · rintro ((hx | rfl) | hx)
        · exact Or.inl hx
        · exact Or.inr ⟨List.mem_cons_self _ _, hP⟩
        · exact Or.inr ⟨List.mem_cons_of_mem _ hx.1, hx.2⟩
      · rintro (hx | ⟨hmem, hPx⟩)
        · exact Or.inl (Or.inl hx)
        · rcases List.mem_cons.mp hmem with rfl | hmem
          · exact Or.inl (Or.inr rfl)
          · exact Or.inr ⟨hmem, hPx⟩
    · rw [if_neg hP]
      rw [show (cols.foldl (fun acc c => if P c then dset acc c (dget acc c + 1) else acc) d)
        = rowFold P cols d from rfl]
      rw [ih]
      constructor
      · rintro (hx | hx)
        · exact Or.inl hx
        · exact Or.inr ⟨List.mem_cons_of_mem _ hx.1, hx.2⟩
      · rintro (hx | ⟨hmem, hPx⟩)
        · exact Or.inl hx
        · rcases List.mem_cons.mp hmem with rfl | hmem
          · rw [hPx] at hP
            exact absurd rfl hP
          · exact Or.inr ⟨hmem, hPx⟩

theorem csvLoop_fst (columns : List String) (sample_rows : Nat) :
    ∀ (rows : List (List String)) (sampled : Nat) (d : List (String × Nat)),
      (csvLoop columns sample_rows rows sampled d).1 =
        sampled + min (sample_rows - sampled) rows.length := by
  intro rows
  induction rows with
  | nil => intro sampled d; simp [csvLoop]
  | cons row rows ih =>
    intro sampled d
    by_cases h : sample_rows ≤ sampled
    · rw [show csvLoop columns sample_rows (row :: rows) sampled d = (sampled, d) by
        simp only [csvLoop, if_pos h]]
      have : sample_rows - sampled = 0 := by omega
      simp [this]
    · rw [show csvLoop columns sample_rows (row :: rows) sampled d =
        csvLoop columns sample_rows rows (sampled + 1)
          (rowFold (fun c => isNullCell (rowGet columns row c)) columns d) by
        simp only [csvLoop, if_neg h]]
      rw [ih]
      simp only [List.length_cons]
      omega

theorem csvLoop_dget_le (columns : List String) (sample_rows : Nat)
    (hnd : columns.Nodup) :
    ∀ (rows : List (List String)) (sampled : Nat) (d : List (String × Nat)),
      (∀ k, dget d k ≤ sampled) →
      ∀ k, dget (csvLoop columns sample_rows rows sampled d).2 k ≤
        (csvLoop columns sample_rows rows sampled d).1 := by
  intro rows
  induction rows with
  | nil => intro sampled d hd k; exact hd k
  | cons row rows ih =>
    intro sampled d hd k
    by_cases h : sample_rows ≤ sampled
    · rw [show csvLoop columns sample_rows (row :: rows) sampled d = (sampled, d) by
        simp only [csvLoop, if_pos h]]
      exact hd k
    · rw [show csvLoop columns sample_rows (row :: rows) sampled d =
        csvLoop columns sample_rows rows (sampled + 1)
          (rowFold (fun c => isNullCell (rowGet columns row c)) columns d) by
        simp only [csvLoop, if_neg h]]
      refine ih (sampled + 1) _ (fun k2 => ?_) k
      calc dget (rowFold (fun c => isNullCell (rowGet columns row c)) columns d) k2 ≤
          dget d k2 + 1 := dget_rowFold_le _ _ hnd d k2
        _ ≤ sampled + 1 := by have := hd k2; omega

theorem csvLoop_keys_mem (columns : List String) (sample_rows : Nat) :
    ∀ (rows : List (List String)) (sampled : Nat) (d : List (String × Nat)) (x : String),
      x ∈ (csvLoop columns sample_rows rows sampled d).2.map Prod.fst ↔
        x ∈ d.map Prod.fst ∨
          (x ∈ columns ∧ x ∈ (csvLoop columns sample_rows rows sampled d).2.map Prod.fst) := by
  intro rows
  induction rows with
  | nil =>
    intro sampled d x
    constructor
    · exact fun h => Or.inl h
    · rintro (h | h)
      · exact h
      · exact h.2
  | cons row rows ih =>
    intro sampled d x
    by_cases h : sample_rows ≤ sampled
    · rw [show csvLoop columns sample_rows (row :: rows) sampled d = (sampled, d) by
        simp only [csvLoop, if_pos h]]
      constructor
      · exact fun h2 => Or.inl h2
      · rintro (h2 | h2)
        · exact h2
        · exact h2.2
    · rw [show csvLoop columns sample_rows (row :: rows) sampled d =
        csvLoop columns sample_rows rows (sampled + 1)
          (rowFold (fun c => isNullCell (rowGet columns row c)) columns d) by
        simp only [csvLoop, if_neg h]]
      constructor
      · intro h2
        rcases (ih (sampled + 1) _ x).mp h2 with h3 | h3
        · rcases (rowFold_keys_mem _ columns d x).mp h3 with h4 | h4
          · exact Or.inl h4
          · exact Or.inr ⟨h4.1, h2⟩
        · exact Or.inr ⟨h3.1, h2⟩
      · rintro (h2 | h2)
        · refine (ih (sampled + 1) _ x).mpr (Or.inl ?_)
          exact (rowFold_keys_mem _ columns d x).mpr (Or.inl h2)
        · exact h2.2

theorem keys_nodup_dset (d : List (String × Nat)) (k : String) (v : Nat)
    (h : (d.map Prod.fst).Nodup) : ((dset d k v).map Prod.fst).Nodup := by
  by_cases hk : k ∈ d.map Prod.fst
  · rw [dset_keys_of_mem v hk]
    exact h
  · rw [dset_keys_of_not_mem v hk]
    rw [List.nodup_append]
    exact ⟨h, List.nodup_singleton k, by simpa using hk⟩

theorem keys_nodup_rowFold (P : String → Bool) (cols : List String) :
    ∀ (d : List (String × Nat)), (d.map Prod.fst).Nodup →
      ((rowFold P cols d).map Prod.fst).Nodup := by
  induction cols with
  | nil => intro d h; exact h
  | cons c cols ih =>
    intro d h
    unfold rowFold
    rw [List.foldl_cons]
    by_cases hP : P c
    · rw [if_pos hP]
      exact ih _ (keys_nodup_dset d c _ h)
    · rw [if_neg hP]
      exact ih d h

theorem keys_nodup_csvLoop (columns : List String) (sample_rows : Nat) :
    ∀ (rows : List (List String)) (sampled : Nat) (d : List (String × Nat)),
      (d.map Prod.fst).Nodup →
      ((csvLoop columns sample_rows rows sampled d).2.map Prod.fst).Nodup := by
  intro rows
  induction rows with
  | nil => intro sampled d h; exact h
  | cons row rows ih =>
    intro sampled d h
    by_cases hle : sample_rows ≤ sampled
    · rw [show csvLoop columns sample_rows (row :: rows) sampled d = (sampled, d) by
        simp only [csvLoop, if_pos hle]]
      exact h
    · rw [show csvLoop columns sample_rows (row :: rows) sampled d =
        csvLoop columns sample_rows rows (sampled + 1)
          (rowFold (fun c => isNullCell (rowGet columns row c)) columns d) by
        simp only [csvLoop, if_neg hle]]
      exact ih (sampled + 1) _ (keys_nodup_rowFold _ columns d h)

theorem init_keys_mem (cols : List String) :
    ∀ (d : List (String × Nat)) (x : String),
      x ∈ ((cols.foldl (fun acc c => dset acc c 0) d).map Prod.fst) ↔
        x ∈ d.map Prod.fst ∨ x ∈ cols := by
  induction cols with
  | nil => intro d x; simp
  | cons c cols ih =>
    intro d x
    rw [List.foldl_cons, ih]
    rw [dset_keys_mem_iff]
    constructor
    · rintro ((hx | rfl) | hx)
      · exact Or.inl hx
      · exact Or.inr (List.mem_cons_self _ _)
      · exact Or.inr (List.mem_cons_of_mem _ hx)
    · rintro (hx | hx)
      · exact Or.inl (Or.inl hx)
      · rcases List.mem_cons.mp hx with rfl | hx
        · exact Or.inl (Or.inr rfl)
        · exact Or.inr hx

theorem init_keys_nodup (cols : List String) :
    ∀ (d : List (String × Nat)), (d.map Prod.fst).Nodup →
      ((cols.foldl (fun acc c => dset acc c 0) d).map Prod.fst).Nodup := by
  induction cols with
  | nil => intro d h; exact h
  | cons c cols ih =>
    intro d h
    rw [List.foldl_cons]
    exact ih _ (keys_nodup_dset d c 0 h)

theorem init_dget_zero (cols : List String) :
    ∀ (d : List (String × Nat)), (∀ k, dget d k = 0) →
      ∀ k, dget (cols.foldl (fun acc c => dset acc c 0) d) k = 0 := by
  induction cols with
  | nil => intro d h k; exact h k
  | cons c cols ih =>
    intro d h k
    rw [List.foldl_cons]
    refine ih _ (fun k2 => ?_) k
    by_cases hk : k2 = c
    · subst hk
      rw [dget_dset_self]
    · rw [dget_dset_ne _ _ _ _ hk]
      exact h k2

theorem dget_of_mem_of_keys_nodup :
    ∀ (d : List (String × Nat)), (d.map Prod.fst).Nodup →
      ∀ kv ∈ d, dget d kv.1 = kv.2 := by
  intro d
  induction d with
  | nil => intro _ kv hkv; simp at hkv
  | cons hd d ih =>
    intro hnd kv hkv
    rw [List.map_cons, List.nodup_cons] at hnd
    rcases List.mem_cons.mp hkv with rfl | hkv
    · show dget (kv :: d) kv.1 = kv.2
      unfold dget
      rw [List.find?_cons]
      simp
    · have hne : (hd.1 == kv.1) = false := by
        rw [beq_eq_false_iff_ne]
        intro hc
        exact hnd.1 (hc ▸ List.mem_map.mpr ⟨kv, hkv, rfl⟩)
      unfold dget
      rw [List.find?_cons, hne]
      have := ih hnd.2 kv hkv
      unfold dget at this
      exact this

theorem csvLoop_keys_sup (columns : List String) (sample_rows : Nat) :
    ∀ (rows : List (List String)) (sampled : Nat) (d : List (String × Nat)) (x : String),
      x ∈ d.map Prod.fst →
      x ∈ (csvLoop columns sample_rows rows sampled d).2.map Prod.fst := by
  intro rows
  induction rows with
  | nil => intro sampled d x h; exact h
  | cons row rows ih =>
    intro sampled d x h
    by_cases hle : sample_rows ≤ sampled
    · rw [show csvLoop columns sample_rows (row :: rows) sampled d = (sampled, d) by
        simp only [csvLoop, if_pos hle]]
      exact h
    · rw [show csvLoop columns sample_rows (row :: rows) sampled d =
        csvLoop columns sample_rows rows (sampled + 1)
          (rowFold (fun c => isNullCell (rowGet columns row c)) columns d) by
        simp only [csvLoop, if_neg hle]]
      refine ih (sampled + 1) _ x ?_
      exact (rowFold_keys_mem _ columns d x).mpr (Or.inl h)

/-- Claim C3 counterexample: on a CSV whose header row is `a,b,a` the
summary's `columns` is `["a", "b", "a"]`, which is not pairwise
distinct. -/
theorem csv_duplicate_columns_cex :
    (inspect_csv_file "dup.csv" [["a", "b", "a"], ["1", "2", "3"]] 5).columns =
      ["a", "b", "a"] ∧
    ¬ (inspect_csv_file "dup.csv" [["a", "b", "a"], ["1", "2", "3"]] 5).columns.Nodup :=
  ⟨by decide, by decide⟩

/-- Claim C3 (amended): the summary's `columns` is the header's
field-name list in order, which may contain duplicates; the key set of
`nullCounts` always equals the set of names in `columns` (every key is a
column name and vice versa). -/
theorem csv_null_counts_keys (path : String) (file : List (List String))
    (sample_rows : Nat) :
    (inspect_csv_file path file sample_rows).columns = file.headD [] ∧
    ∀ c, c ∈ (inspect_csv_file path file sample_rows).null_counts.map Prod.fst ↔
      c ∈ (inspect_csv_file path file sample_rows).columns := by
  refine ⟨rfl, fun c => ?_⟩
  show c ∈ (csvLoop (file.headD []) sample_rows
      ((file.drop 1).filter (fun r => !r.isEmpty)) 0
      ((file.headD []).foldl (fun d c => dset d c 0) [])).2.map Prod.fst ↔
    c ∈ (file.headD [])
  constructor
  · intro h
    rcases (csvLoop_keys_mem _ _ _ _ _ c).mp h with h2 | h2
    · exact ((init_keys_mem _ [] c).mp h2).resolve_left (by simp)
    · exact h2.1
  · intro h
    exact csvLoop_keys_sup _ _ _ _ _ c ((init_keys_mem _ [] c).mpr (Or.inr h))

/-- Claim C3 witness: a header-and-rows instance of the amended claim. -/
theorem csv_null_counts_keys_witness :
    (inspect_csv_file "w.csv" [["a", "b"], ["1", ""]] 4).columns =
      ([["a", "b"], ["1", ""]] : List (List String)).headD [] ∧
    ∀ c, c ∈ (inspect_csv_file "w.csv" [["a", "b"], ["1", ""]] 4).null_counts.map
        Prod.fst ↔
      c ∈ (inspect_csv_file "w.csv" [["a", "b"], ["1", ""]] 4).columns :=
  csv_null_counts_keys "w.csv" [["a", "b"], ["1", ""]] 4

/-- Claim C7 counterexample: with the duplicated header `a,a` and one
blank data row, the sampled row count is `1` but the null count of `a` is
`2` — the per-column count exceeds `sampledRowCount` because the loop
increments the shared dict entry once per duplicate occurrence. -/
theorem csv_null_count_exceeds_sample_cex :
    (inspect_csv_file "dup.csv" [["a", "a"], [""]] 5).sampled_rows = 1 ∧
    dget (inspect_csv_file "dup.csv" [["a", "a"], [""]] 5).null_counts "a" = 2 ∧
    ¬ (dget (inspect_csv_file "dup.csv" [["a", "a"], [""]] 5).null_counts "a" ≤
        (inspect_csv_file "dup.csv" [["a", "a"], [""]] 5).sampled_rows) :=
  ⟨by decide, by decide, by decide⟩

/-- Claim C7 (amended): for a CSV file with `t` data rows (non-blank
records after the header) and `sampleRows ≥ 1`, the inspector is total
and returns `sampledRowCount = min(sampleRows, t)`, and every per-column
null count is at least `0`; when the header names are pairwise distinct
every null count is also at most `sampledRowCount` (with duplicated
header names a count can exceed it, as the counterexample shows). -/
theorem csv_sampling_bounds (path : String) (file : List (List String))
    (sample_rows : Nat) (_hsr : 1 ≤ sample_rows) :
    (inspect_csv_file path file sample_rows).sampled_rows =
      min sample_rows ((file.drop 1).filter (fun r => !r.isEmpty)).length ∧
    (∀ kv ∈ (inspect_csv_file path file sample_rows).null_counts, 0 ≤ kv.2) ∧
    ((file.headD []).Nodup →
      ∀ kv ∈ (inspect_csv_file path file sample_rows).null_counts,
        kv.2 ≤ (inspect_csv_file path file sample_rows).sampled_rows) := by
  refine ⟨?_, fun kv _ => Nat.zero_le _, ?_⟩
  · show (csvLoop (file.headD []) sample_rows
        ((file.drop 1).filter (fun r => !r.isEmpty)) 0
        ((file.headD []).foldl (fun d c => dset d c 0) [])).1 = _
    rw [csvLoop_fst]
    omega
  · intro hnd kv hkv
    have hnodup : (((file.headD []).foldl (fun d c => dset d c 0)
        ([] : List (String × Nat))).map Prod.fst).Nodup :=
      init_keys_nodup _ [] (by simp)
    have hkeys : ((csvLoop (file.headD []) sample_rows
        ((file.drop 1).filter (fun r => !r.isEmpty)) 0
        ((file.headD []).foldl (fun d c => dset d c 0) [])).2.map Prod.fst).Nodup :=
      keys_nodup_csvLoop _ _ _ _ _ hnodup
    have hdget := dget_of_mem_of_keys_nodup _ hkeys kv hkv
    have hinit : ∀ k, dget ((file.headD []).foldl (fun d c => dset d c 0)
        ([] : List (String × Nat))) k = 0 :=
      init_dget_zero _ [] (fun k => rfl)
    have hle := csvLoop_dget_le (file.headD []) sample_rows hnd
      ((file.drop 1).filter (fun r => !r.isEmpty)) 0
      ((file.headD []).foldl (fun d c => dset d c 0) [])
      (fun k => by rw [hinit k]) kv.1
    show kv.2 ≤ (csvLoop (file.headD []) sample_rows
        ((file.drop 1).filter (fun r => !r.isEmpty)) 0
        ((file.headD []).foldl (fun d c => dset d c 0) [])).1
    rw [← hdget]
    exact hle

/-- Claim C7 witness: a well-formed two-column CSV with one blank cell. -/
theorem csv_sampling_bounds_witness :
    (1 ≤ 3) ∧
    (inspect_csv_file "w.csv" [["a", "b"], ["1", " "], ["2", "x"]] 3).sampled_rows =
      min 3 ((([["a", "b"], ["1", " "], ["2", "x"]] : List (List String)).drop 1).filter
        (fun r => !r.isEmpty)).length ∧
    ((([["a", "b"], ["1", " "], ["2", "x"]] : List (List String)).headD []).Nodup →
      ∀ kv ∈ (inspect_csv_file "w.csv" [["a", "b"], ["1", " "], ["2", "x"]] 3).null_counts,
        kv.2 ≤ (inspect_csv_file "w.csv"
          [["a", "b"], ["1", " "], ["2", "x"]] 3).sampled_rows) :=
  ⟨by decide,
    (csv_sampling_bounds "w.csv" [["a", "b"], ["1", " "], ["2", "x"]] 3 (by decide)).1,
    fun hnd => (csv_sampling_bounds "w.csv" [["a", "b"], ["1", " "], ["2", "x"]] 3
      (by decide)).2.2 hnd⟩

/-- Claim C6: the candidate order is fully determined (the model is a
pure function of the snapshot, so two runs agree syntactically):
the root-level tabular files come first, sorted by name; everything after
them splits into one block per visited allowlisted subdirectory, the
block names forming a sublist of the fixed canonical allowlist order
(subdirectories are visited in that order); each block is breadth-first
(path lengths nondecreasing) and concatenates chunks of same-parent
children whose final names are sorted. -/
theorem discover_deterministic_ordering (rootChildren : List Entry)
    (max_files subdir_max_depth : Nat) :
    List.Sorted nameLE
      ((list_root_tabular_files rootChildren).map (fun pth => pth.headD "")) ∧
    ∃ rest : List DirPath,
      (discover_tabular_files rootChildren max_files subdir_max_depth).1 =
        (list_root_tabular_files rootChildren).take max_files ++ rest ∧
      ∃ (blocks : List (List DirPath)) (names : List String),
        rest = blocks.flatten ∧
        names.Sublist ALLOWED_SUBDIRECTORIES ∧
        List.Forall₂ (fun b nm => ∀ pth ∈ b, ∃ t, t ≠ [] ∧ pth = nm :: t)
          blocks names ∧
        ∀ b ∈ blocks,
          b.Pairwise (fun a c => a.length ≤ c.length) ∧
          ∃ chunks : List (List DirPath), b = chunks.flatten ∧
            ∀ c ∈ chunks, scanChunk c := by
  refine ⟨root_names_sorted rootChildren, ?_⟩
  rw [discover_fst]
  by_cases h1 : max_files ≤ (list_root_tabular_files rootChildren).length
  · rw [if_pos h1]
    exact ⟨[], by simp, [], [], rfl, List.nil_sublist _, List.Forall₂.nil, by simp⟩
  · rw [if_neg h1]
    have htake : (list_root_tabular_files rootChildren).take max_files =
        list_root_tabular_files rootChildren :=
      List.take_of_length_le (by omega)
    by_cases h2 : (list_allowlisted_directories rootChildren).isEmpty
    · rw [if_pos h2]
      exact ⟨[], by rw [htake]; simp, [], [], rfl, List.nil_sublist _,
        List.Forall₂.nil, by simp⟩
    · rw [if_neg h2]
      obtain ⟨blocks, names, heq, hsub, hall, hprops⟩ :=
        subdirLoop_decomp max_files subdir_max_depth
          (list_allowlisted_directories rootChildren)
          (list_root_tabular_files rootChildren)
      refine ⟨blocks.flatten, by rw [heq, htake], blocks, names, rfl,
        hsub.trans (allow_names_sublist rootChildren), hall, hprops⟩

/-- Claim C6 witness: the ordering decomposition at a concrete snapshot
with root files and two allowlisted subdirectories. -/
theorem discover_deterministic_ordering_witness :
    List.Sorted nameLE
      ((list_root_tabular_files
        [Entry.file "b.csv", Entry.file "a.csv",
         Entry.dir "val" (some [Entry.file "v.csv"]),
         Entry.dir "train" (some [Entry.file "t.csv",
           Entry.dir "sub" (some [Entry.file "deep.parquet"])])]).map
        (fun pth => pth.headD "")) ∧
    ∃ rest : List DirPath,
      (discover_tabular_files
        [Entry.file "b.csv", Entry.file "a.csv",
         Entry.dir "val" (some [Entry.file "v.csv"]),
         Entry.dir "train" (some [Entry.file "t.csv",
           Entry.dir "sub" (some [Entry.file "deep.parquet"])])] 10 2).1 =
        (list_root_tabular_files
          [Entry.file "b.csv", Entry.file "a.csv",
           Entry.dir "val" (some [Entry.file "v.csv"]),
           Entry.dir "train" (some [Entry.file "t.csv",
             Entry.dir "sub" (some [Entry.file "deep.parquet"])])]).take 10 ++ rest ∧
      ∃ (blocks : List (List DirPath)) (names : List String),
        rest = blocks.flatten ∧
        names.Sublist ALLOWED_SUBDIRECTORIES ∧
        List.Forall₂ (fun b nm => ∀ pth ∈ b, ∃ t, t ≠ [] ∧ pth = nm :: t)
          blocks names ∧
        ∀ b ∈ blocks,
          b.Pairwise (fun a c => a.length ≤ c.length) ∧
          ∃ chunks : List (List DirPath), b = chunks.flatten ∧
            ∀ c ∈ chunks, scanChunk c :=
  discover_deterministic_ordering
    [Entry.file "b.csv", Entry.file "a.csv",
     Entry.dir "val" (some [Entry.file "v.csv"]),
     Entry.dir "train" (some [Entry.file "t.csv",
       Entry.dir "sub" (some [Entry.file "deep.parquet"])])] 10 2

end InspectDataset
